import Mathlib

/-!
# Single-source shortest paths with a binary heap (`src/main.c`)

A shallow embedding of the graph store, the binary min-heap and the Dijkstra
loop of `src/main.c`, followed by theorems about them.

Modelling conventions.

* A finite `float` is modelled by the rational number it denotes, and
  `FLT_MAX` is the largest finite single-precision value. The one arithmetic
  operation of the program, the sum `u->key + w` in `relax`, is a parameter of
  `relaxWith`: the program adds in binary32 (`addF32`, which rounds), and
  `relax`, `dijkstra` and what is built on them take the sum as exact, which
  is the premise of the claims on distances.
* A `VERTEX *` always points into the array `G->V`; it is modelled by the
  index of the cell it points to, and the `NULL` pointer by `none`.
* A `NODE *` list is modelled by the `List` of its nodes, head first.
* `int` vertex numbers are modelled by `Nat`; reading or writing outside an
  array is undefined in C and is excluded by well-formedness hypotheses.
* Loops and recursions whose termination is not structural take a fuel
  argument and return `none` when it runs out.
-/

namespace CSE310

/-! ## Data model -/

/-- The largest finite `float`, `(2 - 2^(-23)) * 2^127`. -/
def FLT_MAX : ℚ := 340282346638528859811704183484516925440

/-- An adjacency-list cell (`struct NODE`, without the `next` link). -/
structure NODE where
  v : Nat
  w : ℚ
deriving DecidableEq

/-- A vertex record (`struct VERTEX`). -/
structure VERTEX where
  index : Nat
  key : ℚ
  pi : Option Nat
  adj : List NODE
deriving DecidableEq

/-- The graph (`struct GRAPH`). -/
structure GRAPH where
  num_vertices : Nat
  V : List VERTEX
deriving DecidableEq

/-- The binary heap of vertex pointers (`MIN_HEAP`). -/
structure MIN_HEAP where
  data : List Nat
  size : Nat
  capacity : Nat
deriving DecidableEq

instance : Inhabited VERTEX := ⟨⟨0, 0, none, []⟩⟩

/-- The cell `G->V[i]`. -/
def GRAPH.vtx (G : GRAPH) (i : Nat) : VERTEX := G.V.getD i default

/-- Store `x` into the cell `G->V[i]`. -/
def GRAPH.setV (G : GRAPH) (i : Nat) (x : VERTEX) : GRAPH :=
  { G with V := G.V.set i x }

/-- The field `G->V[i].key`. -/
def GRAPH.key (G : GRAPH) (i : Nat) : ℚ := (G.vtx i).key

/-- The field `G->V[i].pi`. -/
def GRAPH.pi (G : GRAPH) (i : Nat) : Option Nat := (G.vtx i).pi

/-- The list `G->V[i].adj`. -/
def GRAPH.adj (G : GRAPH) (i : Nat) : List NODE := (G.vtx i).adj

/-- The pointer stored in `heap->data[i]`. -/
def MIN_HEAP.at (heap : MIN_HEAP) (i : Nat) : Nat := heap.data.getD i 0

/-! ## Graph store -/

/-- `createGraph(n)`: `n` vertices, each with `index = i`, `key = FLT_MAX`,
no predecessor and an empty adjacency list. -/
def createGraph (n : Nat) : GRAPH :=
  { num_vertices := n
    V := (List.range n).map fun i => ⟨i, FLT_MAX, none, []⟩ }

/-- `addEdge(G, u, v, w)`: the new node is linked in front of `G->V[u].adj`. -/
def addEdge (G : GRAPH) (u v : Nat) (w : ℚ) : GRAPH :=
  G.setV u { G.vtx u with adj := ⟨v, w⟩ :: (G.vtx u).adj }

/-- `addEdgeReverse(G, u, v, w)`: the new node is linked behind the last node
of `G->V[u].adj` (or becomes the head of an empty list). -/
def addEdgeReverse (G : GRAPH) (u v : Nat) (w : ℚ) : GRAPH :=
  match (G.vtx u).adj with
  | [] => G.setV u { G.vtx u with adj := [⟨v, w⟩] }
  | c :: rest => G.setV u { G.vtx u with adj := (c :: rest) ++ [⟨v, w⟩] }

/-- `readGraph` after parsing: `n` vertices and the edge records `(u, v, w)`
of the file, 1-based, inserted in file order with `addEdge` when `flag = 1`
and with `addEdgeReverse` otherwise. -/
def readGraph (n : Nat) (edges : List (Nat × Nat × ℚ)) (flag : Int) : GRAPH :=
  edges.foldl
    (fun G e =>
      if flag = 1 then addEdge G (e.1 - 1) (e.2.1 - 1) e.2.2
      else addEdgeReverse G (e.1 - 1) (e.2.1 - 1) e.2.2)
    (createGraph n)

/-! ## Binary min-heap -/

/-- `createMinHeap(capacity)`: an empty heap over `capacity` cells. -/
def createMinHeap (capacity : Nat) : MIN_HEAP :=
  { data := List.replicate capacity 0, size := 0, capacity := capacity }

/-- `swap(&heap->data[a], &heap->data[b])`. -/
def swap (heap : MIN_HEAP) (a b : Nat) : MIN_HEAP :=
  { heap with data := (heap.data.set a (heap.at b)).set b (heap.at a) }

/-- `minHeapify(heap, idx)`; keys are read through the pointers, in `G`. -/
def minHeapify (G : GRAPH) : Nat → MIN_HEAP → Nat → Option MIN_HEAP
  | 0, _, _ => none
  | fuel + 1, heap, idx =>
    let smallest := idx
    let left := 2 * idx + 1
    let right := 2 * idx + 2
    let smallest :=
      if left < heap.size ∧ G.key (heap.at left) < G.key (heap.at smallest) then left
      else smallest
    let smallest :=
      if right < heap.size ∧ G.key (heap.at right) < G.key (heap.at smallest) then right
      else smallest
    if smallest ≠ idx then minHeapify G fuel (swap heap smallest idx) smallest
    else some heap

/-- The `while` loop of `insertMinHeap`, entered with loop variable `i`. -/
def insertLoop (G : GRAPH) : Nat → MIN_HEAP → Nat → Option MIN_HEAP
  | 0, _, _ => none
  | fuel + 1, heap, i =>
    if i ≠ 0 ∧ G.key (heap.at ((i - 1) / 2)) ≥ G.key (heap.at i) then
      insertLoop G fuel (swap heap i ((i - 1) / 2)) ((i - 1) / 2)
    else some heap

/-- `insertMinHeap(heap, v)`. -/
def insertMinHeap (G : GRAPH) (heap : MIN_HEAP) (v : Nat) : Option MIN_HEAP :=
  let heap := { heap with size := heap.size + 1 }
  let i := heap.size - 1
  let heap := { heap with data := heap.data.set i v }
  insertLoop G heap.size heap i

/-- `extractMin(heap)`: the returned pointer (`none` for `NULL`) and the heap
afterwards. -/
def extractMin (G : GRAPH) (heap : MIN_HEAP) : Option (Option Nat × MIN_HEAP) :=
  if heap.size = 0 then some (none, heap)
  else
    let root := heap.at 0
    let heap := { heap with data := heap.data.set 0 (heap.at (heap.size - 1)) }
    let heap := { heap with size := heap.size - 1 }
    (minHeapify G (heap.size + 1) heap 0).map fun h => (some root, h)

/-- `isEmpty(heap)`. -/
def isEmpty (heap : MIN_HEAP) : Bool := heap.size = 0

/-! ## Shortest-path engine -/

/-- `initSingleSource(G, s)`. -/
def initSingleSource (G : GRAPH) (s : Nat) : GRAPH :=
  let G :=
    (List.range G.num_vertices).foldl
      (fun G i => G.setV i { G.vtx i with key := FLT_MAX, pi := none }) G
  G.setV s { G.vtx s with key := 0 }

/-- The position of the leading bit of `n`: `log2Fuel n n` is the `e` with
`2 ^ e ≤ n < 2 ^ (e + 1)` for `n > 0`; the first argument bounds the number of
halvings. -/
def log2Fuel : Nat → Nat → Nat
  | 0, _ => 0
  | fuel + 1, n => if 2 ≤ n then log2Fuel fuel (n / 2) + 1 else 0

/-- The power `2 ^ k` for an integer `k`. -/
def pow2 (k : Int) : ℚ :=
  if 0 ≤ k then ((2 ^ k.toNat : ℕ) : ℚ) else 1 / ((2 ^ (-k).toNat : ℕ) : ℚ)

/-- The binary exponent of `a > 0`: the `e` with `2 ^ e ≤ a < 2 ^ (e + 1)`. -/
def floorLog2 (a : ℚ) : Int :=
  let e : Int := (log2Fuel a.num.natAbs a.num.natAbs : Int) - (log2Fuel a.den a.den : Int)
  if pow2 e ≤ a then e else e - 1

/-- The integer nearest to `t`, the even one of the two when `t` lies half way
between two integers. -/
def roundHalfEven (t : ℚ) : Int :=
  let f := Rat.floor t
  let r := t - f
  if r < 1 / 2 then f else if 1 / 2 < r then f + 1 else if f % 2 = 0 then f else f + 1

/-- Rounding to binary32, to nearest with ties to even: a significand of 24
bits, and the spacing `2 ^ (-149)` below the smallest normal number
`2 ^ (-126)`. The exponent is not bounded above: a result beyond `FLT_MAX`
in absolute value stands for an infinity. -/
def roundF32 (q : ℚ) : ℚ :=
  if q = 0 then 0
  else
    let e := max (floorLog2 |q|) (-126)
    let ulp := pow2 (e - 23)
    (roundHalfEven (q / ulp) : ℚ) * ulp

/-- The sum of two finite `float` values as the program computes it. -/
def addF32 (a b : ℚ) : ℚ := roundF32 (a + b)

/-- `relax(u, v, w)` on the vertices `G->V[u]` and `G->V[v]`, with the sum
`u->key + w` computed by `add`. -/
def relaxWith (add : ℚ → ℚ → ℚ) (G : GRAPH) (u v : Nat) (w : ℚ) : GRAPH :=
  if G.key v ≥ add (G.key u) w then
    G.setV v { G.vtx v with key := add (G.key u) w, pi := some u }
  else G

/-- `relax(u, v, w)` with the sum taken as exact. -/
def relax (G : GRAPH) (u v : Nat) (w : ℚ) : GRAPH :=
  relaxWith (fun a b => a + b) G u v w

/-- The inner `while (adj != NULL)` loop of `dijkstra`: relax the edges of `u`
along the list `adj`. -/
def relaxAdj (G : GRAPH) (u : Nat) : List NODE → GRAPH
  | [] => G
  | a :: next => relaxAdj (relax G u a.v a.w) u next

/-- The outer `while (!isEmpty(Q))` loop of `dijkstra`. -/
def drain : Nat → GRAPH → MIN_HEAP → Option GRAPH
  | 0, G, Q => if isEmpty Q then some G else none
  | fuel + 1, G, Q =>
    if isEmpty Q then some G
    else
      match extractMin G Q with
      | some (some u, Q) => drain fuel (relaxAdj G u (G.adj u)) Q
      | _ => none

/-- The `for` loop of `dijkstra` inserting `&G->V[i]` for the `i` of `is`. -/
def populate (G : GRAPH) : List Nat → MIN_HEAP → Option MIN_HEAP
  | [], Q => some Q
  | i :: is, Q =>
    match insertMinHeap G Q i with
    | some Q => populate G is Q
    | none => none

/-- `dijkstra(G, s)` with `s = &G->V[s]`; the graph afterwards. -/
def dijkstra (G : GRAPH) (s : Nat) : Option GRAPH :=
  let G := initSingleSource G s
  let Q := createMinHeap G.num_vertices
  match populate G (List.range G.num_vertices) Q with
  | some Q => drain G.num_vertices G Q
  | none => none

/-- `printPath(v)`: the vertices in the order in which they are printed. -/
def printPath (G : GRAPH) : Nat → Nat → Option (List Nat)
  | 0, _ => none
  | fuel + 1, v =>
    match G.pi v with
    | some p => (printPath G fuel p).map fun l => l ++ [v]
    | none => some [v]

/-- The vertex number printed for `G->V[v]`: `v->index + 1`. -/
def label (G : GRAPH) (v : Nat) : Nat := (G.vtx v).index + 1

/-! ## Specification vocabulary -/

/-- `Walk G a b d`: following edges of the adjacency lists of `G` leads from
`a` to `b`, and the weights of the edges followed add up to `d`. -/
inductive Walk (G : GRAPH) : Nat → Nat → ℚ → Prop
  | nil (a : Nat) : Walk G a a 0
  | cons {a b : Nat} {d : ℚ} (e : NODE) : Walk G a b d → e ∈ G.adj b → Walk G a e.v (d + e.w)

/-- The array of the graph has `num_vertices` cells and every edge stored in
it leads to one of them. -/
def GRAPH.WF (G : GRAPH) : Prop :=
  G.V.length = G.num_vertices ∧ ∀ i < G.num_vertices, ∀ e ∈ G.adj i, e.v < G.num_vertices

/-- The array of the heap has `capacity` cells, of which `size` are in use. -/
def MIN_HEAP.WF (heap : MIN_HEAP) : Prop :=
  heap.data.length = heap.capacity ∧ heap.size ≤ heap.capacity

/-- The vertex pointers held in `data[0 .. size)`, as a multiset. -/
def MIN_HEAP.entries (heap : MIN_HEAP) : Multiset Nat :=
  (Multiset.range heap.size).map heap.at

/-- The min-heap order on the current keys: no cell of `data[1 .. size)` has a
key below the key of its parent cell. -/
def HeapOrdered (G : GRAPH) (heap : MIN_HEAP) : Prop :=
  ∀ i < heap.size, 0 < i → G.key (heap.at ((i - 1) / 2)) ≤ G.key (heap.at i)

instance (G : GRAPH) (heap : MIN_HEAP) : Decidable (HeapOrdered G heap) := by
  unfold HeapOrdered; infer_instance

instance (heap : MIN_HEAP) : Decidable heap.WF := by
  unfold MIN_HEAP.WF; infer_instance

/-- The invariant of `minHeapify(heap, idx)`: the min-heap order holds between
every cell and its parent except below `idx`, and the children of `idx` are
not below the parent of `idx`. -/
def OrderedBut (G : GRAPH) (heap : MIN_HEAP) (idx : Nat) : Prop :=
  (∀ i < heap.size, 0 < i → (i - 1) / 2 ≠ idx →
      G.key (heap.at ((i - 1) / 2)) ≤ G.key (heap.at i)) ∧
  (∀ i < heap.size, 0 < i → (i - 1) / 2 = idx → 0 < idx →
      G.key (heap.at ((idx - 1) / 2)) ≤ G.key (heap.at i))

/-- The invariant of the loop of `insertMinHeap` at loop variable `i`: the
min-heap order holds between every cell and its parent except at `i`, and the
children of `i` are not below the parent of `i`. -/
def OrderedButUp (G : GRAPH) (heap : MIN_HEAP) (i : Nat) : Prop :=
  (∀ j < heap.size, 0 < j → j ≠ i →
      G.key (heap.at ((j - 1) / 2)) ≤ G.key (heap.at j)) ∧
  (∀ j < heap.size, 0 < j → (j - 1) / 2 = i → 0 < i →
      G.key (heap.at ((i - 1) / 2)) ≤ G.key (heap.at j))

/-- `Frame G0 G`: the graph `G` has the vertex count, the array length, the
vertex indices and the adjacency lists of `G0`. -/
def Frame (G0 G : GRAPH) : Prop :=
  G.V.length = G0.V.length ∧ G.num_vertices = G0.num_vertices ∧
    ∀ i, G.adj i = G0.adj i ∧ (G.vtx i).index = (G0.vtx i).index

instance (G : GRAPH) : Decidable G.WF := by
  unfold GRAPH.WF; infer_instance

/-- The outer loop of `dijkstra` (`drain`) with a log: one record per
iteration, holding the vertex returned by `extractMin`, the heap after the
extraction and the graph at that moment, before the edges of the vertex are
relaxed. -/
def drainLog : Nat → GRAPH → MIN_HEAP → Option (List (Nat × MIN_HEAP × GRAPH) × GRAPH)
  | 0, G, Q => if isEmpty Q then some ([], G) else none
  | fuel + 1, G, Q =>
    if isEmpty Q then some ([], G)
    else
      match extractMin G Q with
      | some (some u, Q') =>
        (drainLog fuel (relaxAdj G u (G.adj u)) Q').map fun r => ((u, Q', G) :: r.1, r.2)
      | _ => none

/-- The function `dijkstra` with the log of its outer loop. -/
def dijkstraLog (G : GRAPH) (s : Nat) : Option (List (Nat × MIN_HEAP × GRAPH) × GRAPH) :=
  let G := initSingleSource G s
  let Q := createMinHeap G.num_vertices
  match populate G (List.range G.num_vertices) Q with
  | some Q => drainLog G.num_vertices G Q
  | none => none

/-- The vertex reached from `v` by following `pi` links `k` times; `none` when
a vertex without predecessor is met before. -/
def followPi (G : GRAPH) : Nat → Nat → Option Nat
  | 0, v => some v
  | k + 1, v =>
    match G.pi v with
    | some p => followPi G k p
    | none => none

/-- The invariant behind the distance bounds: `G'` keeps the structure of `G`,
the source has key 0, every key lies between 0 and `FLT_MAX`, and every key
other than `FLT_MAX` is the weight of a walk from `s`. -/
def Reached (G : GRAPH) (s : Nat) (G' : GRAPH) : Prop :=
  Frame G G' ∧ G'.key s = 0 ∧ (∀ x, 0 ≤ G'.key x) ∧
    (∀ x < G.num_vertices, G'.key x ≤ FLT_MAX) ∧
    (∀ x < G.num_vertices, G'.key x ≠ FLT_MAX → Walk G s x (G'.key x))

/-- The invariant behind path reconstruction under positive weights: `G'`
keeps the structure of `G`, the source has key 0 and no predecessor, every key
lies between 0 and `FLT_MAX`, a vertex without predecessor other than the
source has key `FLT_MAX`, and a predecessor has a smaller key. -/
def Tree (G : GRAPH) (s : Nat) (G' : GRAPH) : Prop :=
  Frame G G' ∧ G'.key s = 0 ∧ G'.pi s = none ∧ (∀ x, 0 ≤ G'.key x) ∧
    (∀ x < G.num_vertices, G'.key x ≤ FLT_MAX) ∧
    (∀ x < G.num_vertices, x ≠ s → G'.pi x = none → G'.key x = FLT_MAX) ∧
    (∀ x < G.num_vertices, ∀ u, G'.pi x = some u → u < G.num_vertices ∧ G'.key u < G'.key x)

/-- The number of vertices below `n` whose key is smaller than the key of
`x`. -/
def rank (G : GRAPH) (n x : Nat) : Nat :=
  ((Finset.range n).filter fun y => G.key y < G.key x).card

/-! ## Concrete inputs -/

/-- The graph of the end-to-end example: edges `1 -> 2` of weight 1, `2 -> 3`
of weight 2 and `1 -> 3` of weight 5, read with the given `flag`. -/
def exampleGraph (flag : Int) : GRAPH := readGraph 3 [(1, 2, 1), (2, 3, 2), (1, 3, 5)] flag

/-- A heap over the three vertices of `exampleGraph`. -/
def exampleHeap : MIN_HEAP := ⟨[0, 1, 2], 3, 3⟩

/-- Four vertices on the path `1 -> 3 -> 2 -> 4`, every edge of weight 1. -/
def chainGraph : GRAPH := readGraph 4 [(1, 3, 1), (3, 2, 1), (2, 4, 1)] 1

/-- The graph `chainGraph` with the additional edge `1 -> 2` of weight 10. -/
def detourGraph : GRAPH := readGraph 4 [(1, 2, 10), (1, 3, 1), (3, 2, 1), (2, 4, 1)] 2

/-- Two vertices joined in both directions by edges of weight 0. -/
def zeroCycleGraph : GRAPH := readGraph 2 [(1, 2, 0), (2, 1, 0)] 1

/-- Three vertices, edges `1 -> 2` and `3 -> 2`: no edge leads to vertex 3. -/
def isolatedGraph : GRAPH := readGraph 3 [(1, 2, 1), (3, 2, 4)] 1

/-- The graph `chainGraph` with weight 0 on its last edge `2 -> 4`. -/
def zeroTailGraph : GRAPH := readGraph 4 [(1, 3, 1), (3, 2, 1), (2, 4, 0)] 1

/-- Two vertices of key `2 ^ 24`, where binary32 addition of 1 rounds. -/
def roundingGraph : GRAPH := ⟨2, [⟨0, 16777216, none, []⟩, ⟨1, 16777216, none, []⟩]⟩

/-- A heap holding the vertices 1 and 3 of `exampleGraph`, with a free cell. -/
def pairHeap : MIN_HEAP := ⟨[0, 2, 0], 2, 3⟩

/-! ## Reading and writing cells -/

theorem GRAPH.vtx_setV (G : GRAPH) (i j : Nat) (x : VERTEX) :
    (G.setV i x).vtx j = if j = i ∧ i < G.V.length then x else G.vtx j := by
  unfold GRAPH.vtx GRAPH.setV
  simp only [List.getD_eq_getElem?_getD, List.getElem?_set]
  by_cases h : i = j
  · subst h
    by_cases h2 : i < G.V.length
    · simp [h2]
    · simp [h2, List.getElem?_eq_none (not_lt.mp h2)]
  · have h' : ¬ j = i := fun e => h e.symm
    simp [h, h']

theorem GRAPH.vtx_setV_same (G : GRAPH) (i : Nat) (x : VERTEX) (hi : i < G.V.length) :
    (G.setV i x).vtx i = x := by
  simp [GRAPH.vtx_setV, hi]

theorem GRAPH.vtx_setV_ne (G : GRAPH) (i j : Nat) (x : VERTEX) (h : j ≠ i) :
    (G.setV i x).vtx j = G.vtx j := by
  simp [GRAPH.vtx_setV, h]

@[simp]
theorem GRAPH.setV_length (G : GRAPH) (i : Nat) (x : VERTEX) :
    (G.setV i x).V.length = G.V.length := by
  simp [GRAPH.setV]

@[simp]
theorem GRAPH.setV_num (G : GRAPH) (i : Nat) (x : VERTEX) :
    (G.setV i x).num_vertices = G.num_vertices := rfl

theorem MIN_HEAP.at_swap (h : MIN_HEAP) (a b k : Nat)
    (ha : a < h.data.length) (hb : b < h.data.length) :
    (swap h a b).at k = if k = b then h.at a else if k = a then h.at b else h.at k := by
  unfold swap MIN_HEAP.at
  simp only [List.getD_eq_getElem?_getD, List.getElem?_set, List.length_set]
  by_cases h1 : b = k
  · subst h1; simp [hb]
  · have h1' : ¬ k = b := fun e => h1 e.symm
    by_cases h2 : a = k
    · subst h2; simp [h1, h1', ha]
    · have h2' : ¬ k = a := fun e => h2 e.symm
      simp [h1, h1', h2, h2']

@[simp]
theorem swap_size (h : MIN_HEAP) (a b : Nat) : (swap h a b).size = h.size := rfl

@[simp]
theorem swap_capacity (h : MIN_HEAP) (a b : Nat) :
    (swap h a b).capacity = h.capacity := rfl

@[simp]
theorem swap_length (h : MIN_HEAP) (a b : Nat) :
    (swap h a b).data.length = h.data.length := by
  simp [swap]

/-! ## `relax` -/

theorem relax_eq (G : GRAPH) (u v : Nat) (w : ℚ) :
    relax G u v w =
      if G.key v ≥ G.key u + w then
        G.setV v { G.vtx v with key := G.key u + w, pi := some u }
      else G := rfl

theorem relax_vtx_ne (G : GRAPH) (u v x : Nat) (w : ℚ) (hx : x ≠ v) :
    (relax G u v w).vtx x = G.vtx x := by
  rw [relax_eq]
  split
  · exact GRAPH.vtx_setV_ne _ _ _ _ hx
  · rfl

theorem relax_fire (G : GRAPH) (u v : Nat) (w : ℚ) (hv : v < G.V.length)
    (h : G.key v ≥ G.key u + w) :
    (relax G u v w).vtx v = { G.vtx v with key := G.key u + w, pi := some u } := by
  rw [relax_eq]
  rw [if_pos h]
  exact GRAPH.vtx_setV_same _ _ _ hv

theorem relax_skip (G : GRAPH) (u v : Nat) (w : ℚ) (h : ¬ G.key v ≥ G.key u + w) :
    relax G u v w = G := by
  rw [relax_eq]
  rw [if_neg h]

@[simp]
theorem relax_length (G : GRAPH) (u v : Nat) (w : ℚ) :
    (relax G u v w).V.length = G.V.length := by
  rw [relax_eq]
  split <;> simp

@[simp]
theorem relax_num (G : GRAPH) (u v : Nat) (w : ℚ) :
    (relax G u v w).num_vertices = G.num_vertices := by
  rw [relax_eq]
  split <;> simp

theorem swap_lt (n a b k : Nat) (ha : a < n) (hb : b < n) (hk : k < n) :
    Equiv.swap a b k < n := by
  rw [Equiv.swap_apply_def]
  split_ifs <;> assumption

theorem range_map_swap (n a b : Nat) (ha : a < n) (hb : b < n) :
    (Multiset.range n).map (Equiv.swap a b) = Multiset.range n := by
  apply (Multiset.Nodup.ext ((Multiset.nodup_range n).map (Equiv.swap a b).injective)
    (Multiset.nodup_range n)).mpr
  intro x
  simp only [Multiset.mem_map, Multiset.mem_range]
  constructor
  · rintro ⟨k, hk, rfl⟩
    exact swap_lt n a b k ha hb hk
  · intro hx
    exact ⟨Equiv.swap a b x, swap_lt n a b x ha hb hx, by simp⟩

theorem MIN_HEAP.at_swap_eq (h : MIN_HEAP) (a b k : Nat)
    (ha : a < h.data.length) (hb : b < h.data.length) :
    (swap h a b).at k = h.at (Equiv.swap a b k) := by
  rw [MIN_HEAP.at_swap h a b k ha hb, Equiv.swap_apply_def]
  by_cases h1 : k = b
  · subst h1
    by_cases h2 : k = a
    · subst h2; simp
    · simp [h2]
  · by_cases h2 : k = a
    · subst h2; simp [h1]
    · simp [h1, h2]

theorem entries_swap (h : MIN_HEAP) (a b : Nat) (ha : a < h.size) (hb : b < h.size)
    (hl : h.size ≤ h.data.length) : (swap h a b).entries = h.entries := by
  have e : (swap h a b).at = h.at ∘ (Equiv.swap a b) := by
    funext k
    exact MIN_HEAP.at_swap_eq h a b k (by omega) (by omega)
  unfold MIN_HEAP.entries
  rw [swap_size, e, ← Multiset.map_map, range_map_swap _ _ _ ha hb]




theorem heapOrdered_of_orderedBut (G : GRAPH) (heap : MIN_HEAP) (idx : Nat)
    (hc : ∀ i < heap.size, i = 2 * idx + 1 ∨ i = 2 * idx + 2 →
      G.key (heap.at idx) ≤ G.key (heap.at i))
    (ho : OrderedBut G heap idx) : HeapOrdered G heap := by
  intro i hi hpos
  by_cases hp : (i - 1) / 2 = idx
  · rw [hp]
    exact hc i hi (by omega)
  · exact ho.1 i hi hpos hp

theorem orderedBut_swap (G : GRAPH) (heap : MIN_HEAP) (idx s : Nat)
    (hs : s = 2 * idx + 1 ∨ s = 2 * idx + 2) (hlt : s < heap.size)
    (hl : heap.size ≤ heap.data.length)
    (hk : G.key (heap.at s) < G.key (heap.at idx))
    (hc : ∀ i < heap.size, i = 2 * idx + 1 ∨ i = 2 * idx + 2 →
      G.key (heap.at s) ≤ G.key (heap.at i))
    (ho : OrderedBut G heap idx) : OrderedBut G (swap heap s idx) s := by
  have hsl : s < heap.data.length := by omega
  have hil : idx < heap.data.length := by omega
  constructor
  · intro i hi hpos hp
    simp only [swap_size] at hi
    rw [MIN_HEAP.at_swap heap s idx _ hsl hil, MIN_HEAP.at_swap heap s idx _ hsl hil]
    by_cases hpi : (i - 1) / 2 = idx
    · -- `i` is a child of `idx`
      rw [if_pos hpi]
      by_cases his : i = s
      · rw [if_neg (by omega), if_pos his]; exact le_of_lt hk
      · rw [if_neg (by omega), if_neg his]; exact hc i hi (by omega)
    · rw [if_neg hpi, if_neg hp]
      by_cases hii : i = idx
      · rw [if_pos hii]
        subst hii
        exact ho.2 s hlt (by omega) (by omega) hpos
      · rw [if_neg hii, if_neg (by omega)]
        exact ho.1 i hi hpos hpi
  · intro i hi hpos hp _
    simp only [swap_size] at hi
    rw [MIN_HEAP.at_swap heap s idx _ hsl hil, MIN_HEAP.at_swap heap s idx _ hsl hil]
    have h1 : (s - 1) / 2 = idx := by omega
    rw [if_pos h1, if_neg (by omega), if_neg (by omega)]
    have := ho.1 i hi hpos (by omega)
    rwa [hp] at this

theorem minHeapify_spec (G : GRAPH) : ∀ (fuel : Nat) (heap : MIN_HEAP) (idx : Nat),
    1 ≤ fuel → heap.size ≤ fuel + idx → heap.size ≤ heap.data.length →
    ∃ h', minHeapify G fuel heap idx = some h' ∧ h'.size = heap.size ∧
      h'.capacity = heap.capacity ∧ h'.data.length = heap.data.length ∧
      h'.entries = heap.entries ∧ (OrderedBut G heap idx → HeapOrdered G h') := by
  intro fuel
  induction fuel with
  | zero => intro heap idx h; omega
  | succ fuel ih =>
    intro heap idx _ hf hl
    -- the child selected by the two comparisons
    have step : ∀ s, (s = 2 * idx + 1 ∨ s = 2 * idx + 2) → s < heap.size →
        G.key (heap.at s) < G.key (heap.at idx) →
        (∀ i < heap.size, i = 2 * idx + 1 ∨ i = 2 * idx + 2 →
          G.key (heap.at s) ≤ G.key (heap.at i)) →
        ∃ h', minHeapify G fuel (swap heap s idx) s = some h' ∧ h'.size = heap.size ∧
          h'.capacity = heap.capacity ∧ h'.data.length = heap.data.length ∧
          h'.entries = heap.entries ∧ (OrderedBut G heap idx → HeapOrdered G h') := by
      intro s hs hlt hk hc
      obtain ⟨h', e, e1, e2, e3, e4, e5⟩ := ih (swap heap s idx) s (by omega)
        (by simp only [swap_size]; omega) (by simpa using hl)
      refine ⟨h', e, by simpa using e1, by simpa using e2, by simpa using e3, ?_, ?_⟩
      · rw [e4]; exact entries_swap heap s idx hlt (by omega) hl
      · intro ho
        exact e5 (orderedBut_swap G heap idx s hs hlt hl hk hc ho)
    unfold minHeapify
    simp only []
    by_cases c1 : 2 * idx + 1 < heap.size ∧ G.key (heap.at (2 * idx + 1)) < G.key (heap.at idx)
    · rw [if_pos c1]
      by_cases c2 : 2 * idx + 2 < heap.size ∧
          G.key (heap.at (2 * idx + 2)) < G.key (heap.at (2 * idx + 1))
      · rw [if_pos c2, if_pos (by omega)]
        apply step _ (Or.inr rfl) c2.1 (lt_trans c2.2 c1.2)
        intro i _ hi
        rcases hi with rfl | rfl
        · exact le_of_lt c2.2
        · exact le_refl _
      · rw [if_neg c2, if_pos (by omega)]
        apply step _ (Or.inl rfl) c1.1 c1.2
        intro i hi' hi
        rcases hi with rfl | rfl
        · exact le_refl _
        · exact not_lt.mp fun hh => c2 ⟨hi', hh⟩
    · rw [if_neg c1]
      by_cases c2 : 2 * idx + 2 < heap.size ∧
          G.key (heap.at (2 * idx + 2)) < G.key (heap.at idx)
      · rw [if_pos c2, if_pos (by omega)]
        apply step _ (Or.inr rfl) c2.1 c2.2
        intro i hi' hi
        rcases hi with rfl | rfl
        · exact le_trans (le_of_lt c2.2) (not_lt.mp fun hh => c1 ⟨hi', hh⟩)
        · exact le_refl _
      · rw [if_neg c2, if_neg (by simp)]
        refine ⟨heap, rfl, rfl, rfl, rfl, rfl, ?_⟩
        apply heapOrdered_of_orderedBut
        intro i hi' hi
        rcases hi with rfl | rfl
        · exact not_lt.mp fun hh => c1 ⟨hi', hh⟩
        · exact not_lt.mp fun hh => c2 ⟨hi', hh⟩




theorem MIN_HEAP.at_set (heap : MIN_HEAP) (i k x sz cap : Nat) (hi : i < heap.data.length) :
    MIN_HEAP.at ⟨heap.data.set i x, sz, cap⟩ k = if k = i then x else heap.at k := by
  unfold MIN_HEAP.at
  simp only [List.getD_eq_getElem?_getD, List.getElem?_set]
  by_cases h : i = k
  · subst h; simp [hi]
  · have h' : ¬ k = i := fun e => h e.symm
    simp [h, h']

theorem root_le (G : GRAPH) (heap : MIN_HEAP) (ho : HeapOrdered G heap) :
    ∀ i < heap.size, G.key (heap.at 0) ≤ G.key (heap.at i) := by
  intro i
  induction i using Nat.strong_induction_on with
  | _ i ih =>
    intro hi
    rcases Nat.eq_zero_or_pos i with rfl | hpos
    · exact le_refl _
    · exact le_trans (ih ((i - 1) / 2) (by omega) (by omega)) (ho i hi hpos)

theorem extractMin_some (G : GRAPH) (heap : MIN_HEAP) (hwf : heap.WF) (hne : heap.size ≠ 0) :
    ∃ heap', extractMin G heap = some (some (heap.at 0), heap') ∧
      heap'.size + 1 = heap.size ∧ heap'.WF ∧
      heap.at 0 ::ₘ heap'.entries = heap.entries ∧
      (HeapOrdered G heap → HeapOrdered G heap') := by
  obtain ⟨hlen, hcap⟩ := hwf
  obtain ⟨n, hn⟩ : ∃ n, heap.size = n + 1 := ⟨heap.size - 1, by omega⟩
  have hl0 : 0 < heap.data.length := by omega
  have hat : ∀ k, MIN_HEAP.at ⟨heap.data.set 0 (heap.at n), n, heap.capacity⟩ k
      = if k = 0 then heap.at n else heap.at k := fun k => MIN_HEAP.at_set heap 0 k _ _ _ hl0
  obtain ⟨h', e, e1, e2, e3, e4, e5⟩ := minHeapify_spec G (n + 1)
    ⟨heap.data.set 0 (heap.at n), n, heap.capacity⟩ 0
    (by omega) (by simp) (by simp only [List.length_set]; omega)
  simp only [List.length_set] at e1 e2 e3
  refine ⟨h', ?_, by omega, ⟨by omega, by omega⟩, ?_, ?_⟩
  · unfold extractMin
    rw [if_neg hne]
    simp only [hn, Nat.add_sub_cancel, e, Option.map_some']
  · rw [e4, ← entries_swap heap 0 n (by omega) (by omega) (by omega)]
    unfold MIN_HEAP.entries
    simp only [swap_size]
    rw [hn, Multiset.range_succ, Multiset.map_cons]
    congr 1
    · rw [MIN_HEAP.at_swap heap 0 n _ hl0 (by omega), if_pos rfl]
    · apply Multiset.map_congr rfl
      intro k hk
      rw [Multiset.mem_range] at hk
      rw [MIN_HEAP.at_swap heap 0 n _ hl0 (by omega), if_neg (by omega), hat]
  · intro ho
    apply e5
    constructor
    · intro i hi hpos hp
      have hi' : i < n := hi
      rw [hat, hat, if_neg hp, if_neg (by omega)]
      exact ho i (by omega) hpos
    · intro i _ _ _ h0
      exact absurd h0 (lt_irrefl 0)



theorem orderedButUp_swap (G : GRAPH) (heap : MIN_HEAP) (i : Nat)
    (hi : i < heap.size) (hl : heap.size ≤ heap.data.length) (hpos : i ≠ 0)
    (hk : G.key (heap.at ((i - 1) / 2)) ≥ G.key (heap.at i))
    (ho : OrderedButUp G heap i) :
    OrderedButUp G (swap heap i ((i - 1) / 2)) ((i - 1) / 2) := by
  have hil : i < heap.data.length := by omega
  have hpl : (i - 1) / 2 < heap.data.length := by omega
  constructor
  · intro j hj hjpos hjp
    simp only [swap_size] at hj
    rw [MIN_HEAP.at_swap heap i _ _ hil hpl, MIN_HEAP.at_swap heap i _ _ hil hpl]
    by_cases hji : j = i
    · subst hji
      rw [if_pos rfl, if_neg hjp, if_pos rfl]
      exact hk
    · rw [if_neg hjp, if_neg hji]
      by_cases h1 : (j - 1) / 2 = (i - 1) / 2
      · rw [if_pos h1]
        exact le_trans hk (h1 ▸ ho.1 j hj hjpos hji)
      · rw [if_neg h1]
        by_cases h2 : (j - 1) / 2 = i
        · rw [if_pos h2]
          exact ho.2 j hj hjpos h2 (by omega)
        · rw [if_neg h2]
          exact ho.1 j hj hjpos hji
  · intro j hj hjpos hjp hp0
    simp only [swap_size] at hj
    rw [MIN_HEAP.at_swap heap i _ _ hil hpl, MIN_HEAP.at_swap heap i _ _ hil hpl]
    rw [if_neg (by omega), if_neg (by omega), if_neg (by omega)]
    have hpp := ho.1 ((i - 1) / 2) (by omega) hp0 (by omega)
    by_cases hji : j = i
    · rw [if_pos hji]
      exact hpp
    · rw [if_neg hji]
      exact le_trans hpp (hjp ▸ ho.1 j hj hjpos hji)

theorem insertLoop_spec (G : GRAPH) : ∀ (fuel : Nat) (heap : MIN_HEAP) (i : Nat),
    i < fuel → i < heap.size → heap.size ≤ heap.data.length →
    ∃ h', insertLoop G fuel heap i = some h' ∧ h'.size = heap.size ∧
      h'.capacity = heap.capacity ∧ h'.data.length = heap.data.length ∧
      h'.entries = heap.entries ∧ (OrderedButUp G heap i → HeapOrdered G h') := by
  intro fuel
  induction fuel with
  | zero => intro heap i h; omega
  | succ fuel ih =>
    intro heap i hf hi hl
    unfold insertLoop
    by_cases c : i ≠ 0 ∧ G.key (heap.at ((i - 1) / 2)) ≥ G.key (heap.at i)
    · rw [if_pos c]
      obtain ⟨h', e, e1, e2, e3, e4, e5⟩ := ih (swap heap i ((i - 1) / 2)) ((i - 1) / 2)
        (by omega) (by simp only [swap_size]; omega) (by simpa using hl)
      refine ⟨h', e, by simpa using e1, by simpa using e2, by simpa using e3, ?_, ?_⟩
      · rw [e4]; exact entries_swap heap i _ hi (by omega) hl
      · intro ho
        exact e5 (orderedButUp_swap G heap i hi hl c.1 c.2 ho)
    · rw [if_neg c]
      refine ⟨heap, rfl, rfl, rfl, rfl, rfl, ?_⟩
      intro ho j hj hjpos
      by_cases hji : j = i
      · subst hji
        exact le_of_lt (not_le.mp fun hh => c ⟨by omega, hh⟩)
      · exact ho.1 j hj hjpos hji

theorem insertMinHeap_some (G : GRAPH) (heap : MIN_HEAP) (v : Nat) (hwf : heap.WF)
    (hlt : heap.size < heap.capacity) :
    ∃ heap', insertMinHeap G heap v = some heap' ∧
      heap'.size = heap.size + 1 ∧ heap'.WF ∧ heap'.capacity = heap.capacity ∧
      heap'.entries = v ::ₘ heap.entries ∧
      (HeapOrdered G heap → HeapOrdered G heap') := by
  obtain ⟨hlen, hcap⟩ := hwf
  have hl0 : heap.size < heap.data.length := by omega
  have hat : ∀ k, MIN_HEAP.at ⟨heap.data.set heap.size v, heap.size + 1, heap.capacity⟩ k
      = if k = heap.size then v else heap.at k := fun k => MIN_HEAP.at_set heap _ k _ _ _ hl0
  obtain ⟨h', e, e1, e2, e3, e4, e5⟩ := insertLoop_spec G (heap.size + 1)
    ⟨heap.data.set heap.size v, heap.size + 1, heap.capacity⟩ heap.size
    (by omega) (by simp) (by simp only [List.length_set]; omega)
  simp only [List.length_set] at e1 e2 e3
  refine ⟨h', ?_, e1, ⟨by omega, by omega⟩, e2, ?_, ?_⟩
  · unfold insertMinHeap
    simpa using e
  · rw [e4]
    unfold MIN_HEAP.entries
    simp only []
    rw [Multiset.range_succ, Multiset.map_cons]
    congr 1
    · rw [hat, if_pos rfl]
    · apply Multiset.map_congr rfl
      intro k hk
      rw [Multiset.mem_range] at hk
      rw [hat, if_neg (by omega)]
  · intro ho
    apply e5
    constructor
    · intro j hj hjpos hjn
      have hj' : j < heap.size + 1 := hj
      rw [hat, hat, if_neg hjn, if_neg (by omega)]
      exact ho j (by omega) hjpos
    · intro j hj _ hjp hpos
      have hj' : j < heap.size + 1 := hj
      omega



theorem relax_adj (G : GRAPH) (u v : Nat) (w : ℚ) (i : Nat) :
    (relax G u v w).adj i = G.adj i := by
  rw [relax_eq]
  unfold GRAPH.adj
  split
  · rw [GRAPH.vtx_setV]
    split
    · rename_i h; rw [h.1]
    · rfl
  · rfl

theorem relax_index (G : GRAPH) (u v : Nat) (w : ℚ) (i : Nat) :
    ((relax G u v w).vtx i).index = (G.vtx i).index := by
  rw [relax_eq]
  split
  · rw [GRAPH.vtx_setV]
    split
    · rename_i h; rw [h.1]
    · rfl
  · rfl

theorem relaxAdj_inv (P : GRAPH → Prop) (u : Nat) (Q : NODE → Prop)
    (hstep : ∀ G e, P G → Q e → P (relax G u e.v e.w)) :
    ∀ (l : List NODE) (G : GRAPH), (∀ e ∈ l, Q e) → P G → P (relaxAdj G u l) := by
  intro l
  induction l with
  | nil => intro G _ h; exact h
  | cons a l ih =>
    intro G hl h
    unfold relaxAdj
    exact ih _ (fun e he => hl e (List.mem_cons_of_mem _ he))
      (hstep G a h (hl a (List.mem_cons_self _ _)))

theorem drain_inv (P : GRAPH → Prop) (n : Nat)
    (hstep : ∀ G u, P G → u < n → P (relaxAdj G u (G.adj u))) :
    ∀ (fuel : Nat) (G : GRAPH) (Q : MIN_HEAP), Q.WF → Q.size ≤ fuel →
      (∀ x ∈ Q.entries, x < n) → P G → ∃ G', drain fuel G Q = some G' ∧ P G' := by
  intro fuel
  induction fuel with
  | zero =>
    intro G Q _ hs _ hP
    have : Q.size = 0 := by omega
    exact ⟨G, by simp [drain, isEmpty, this], hP⟩
  | succ fuel ih =>
    intro G Q hwf hs hent hP
    unfold drain
    by_cases h0 : Q.size = 0
    · exact ⟨G, by simp [isEmpty, h0], hP⟩
    · obtain ⟨Q', e, e1, e2, e3, _⟩ := extractMin_some G Q hwf h0
      have hu : Q.at 0 < n := hent _ (by rw [← e3]; exact Multiset.mem_cons_self _ _)
      have hent' : ∀ x ∈ Q'.entries, x < n := fun x hx =>
        hent x (by rw [← e3]; exact Multiset.mem_cons_of_mem hx)
      obtain ⟨G', e', hP'⟩ := ih (relaxAdj G (Q.at 0) (G.adj (Q.at 0))) Q' e2 (by omega) hent'
        (hstep G _ hP hu)
      refine ⟨G', ?_, hP'⟩
      simp only [isEmpty, h0, decide_False, Bool.false_eq_true, if_false, e]
      exact e'

theorem populate_spec (G : GRAPH) : ∀ (is : List Nat) (Q : MIN_HEAP), Q.WF →
    Q.size + is.length ≤ Q.capacity →
    ∃ Q', populate G is Q = some Q' ∧ Q'.WF ∧ Q'.size = Q.size + is.length ∧
      Q'.capacity = Q.capacity ∧ Q'.entries = (is : Multiset Nat) + Q.entries ∧
      (HeapOrdered G Q → HeapOrdered G Q') := by
  intro is
  induction is with
  | nil =>
    intro Q hwf _
    exact ⟨Q, rfl, hwf, by simp, rfl, by simp, id⟩
  | cons i is ih =>
    intro Q hwf hs
    simp only [List.length_cons] at hs
    obtain ⟨Q1, e, e1, e2, e3, e4, e5⟩ := insertMinHeap_some G Q i hwf (by omega)
    obtain ⟨Q2, f, f1, f2, f3, f4, f5⟩ := ih Q1 e2 (by omega)
    refine ⟨Q2, ?_, f1, ?_, by omega, ?_, fun h => f5 (e5 h)⟩
    · unfold populate
      simp only [e]
      exact f
    · simp only [List.length_cons]; omega
    · rw [f4, e4, ← Multiset.cons_coe, Multiset.cons_add, Multiset.add_cons]

theorem createMinHeap_wf (n : Nat) : (createMinHeap n).WF := by
  simp [createMinHeap, MIN_HEAP.WF]

theorem init_fold (G : GRAPH) : ∀ k, k ≤ G.V.length →
    ((List.range k).foldl
        (fun G i => G.setV i { G.vtx i with key := FLT_MAX, pi := none }) G).V.length
      = G.V.length ∧
    ((List.range k).foldl
        (fun G i => G.setV i { G.vtx i with key := FLT_MAX, pi := none }) G).num_vertices
      = G.num_vertices ∧
    ∀ i, ((List.range k).foldl
        (fun G i => G.setV i { G.vtx i with key := FLT_MAX, pi := none }) G).vtx i
      = if i < k then { G.vtx i with key := FLT_MAX, pi := none } else G.vtx i := by
  intro k
  induction k with
  | zero => intro _; simp
  | succ k ih =>
    intro hk
    obtain ⟨h1, h2, h3⟩ := ih (by omega)
    rw [List.range_succ, List.foldl_append]
    simp only [List.foldl_cons, List.foldl_nil, GRAPH.setV_length, GRAPH.setV_num]
    refine ⟨h1, h2, fun i => ?_⟩
    rw [GRAPH.vtx_setV, h1, h3, h3]
    by_cases hik : i = k
    · subst hik
      simp [hk]
      omega
    · by_cases hlt : i < k
      · simp only [hik, false_and, if_false, hlt, if_true]
        rw [if_pos (by omega)]
      · simp only [hik, false_and, if_false, hlt]
        rw [if_neg (by omega)]




theorem initSingleSource_spec (G : GRAPH) (s : Nat) (hlen : G.V.length = G.num_vertices) :
    (initSingleSource G s).V.length = G.V.length ∧
    (initSingleSource G s).num_vertices = G.num_vertices ∧
    ∀ i, (initSingleSource G s).vtx i =
      if i < G.num_vertices then
        ⟨(G.vtx i).index, if i = s then 0 else FLT_MAX, none, (G.vtx i).adj⟩
      else G.vtx i := by
  obtain ⟨h1, h2, h3⟩ := init_fold G G.num_vertices (by omega)
  unfold initSingleSource
  simp only [GRAPH.setV_length, GRAPH.setV_num]
  refine ⟨h1, h2, fun i => ?_⟩
  rw [GRAPH.vtx_setV, h1, h3, h3]
  by_cases his : i = s
  · subst his
    by_cases hlt : i < G.num_vertices
    · simp [hlt, hlen]
    · simp [hlt, hlen]
  · simp [his]

theorem list_ext_getD {α : Type} (d : α) (l1 l2 : List α) (hl : l1.length = l2.length)
    (h : ∀ i, l1.getD i d = l2.getD i d) : l1 = l2 := by
  apply List.ext_getElem hl
  intro i h1 h2
  have := h i
  rwa [List.getD_eq_getElem l1 d h1, List.getD_eq_getElem l2 d h2] at this

theorem GRAPH.ext_vtx (G1 G2 : GRAPH) (hn : G1.num_vertices = G2.num_vertices)
    (hl : G1.V.length = G2.V.length) (h : ∀ i, G1.vtx i = G2.vtx i) : G1 = G2 := by
  cases G1
  cases G2
  simp only [GRAPH.mk.injEq]
  exact ⟨hn, list_ext_getD default _ _ hl h⟩

theorem VERTEX.ext_fields (x y : VERTEX) (h1 : x.index = y.index) (h2 : x.key = y.key)
    (h3 : x.pi = y.pi) (h4 : x.adj = y.adj) : x = y := by
  cases x
  cases y
  simp only [VERTEX.mk.injEq]
  exact ⟨h1, h2, h3, h4⟩

theorem frame_refl (G : GRAPH) : Frame G G := ⟨rfl, rfl, fun _ => ⟨rfl, rfl⟩⟩

theorem frame_relax (G0 G : GRAPH) (u v : Nat) (w : ℚ) (h : Frame G0 G) :
    Frame G0 (relax G u v w) := by
  obtain ⟨h1, h2, h3⟩ := h
  refine ⟨by simpa using h1, by simpa using h2, fun i => ⟨?_, ?_⟩⟩
  · rw [relax_adj]; exact (h3 i).1
  · rw [relax_index]; exact (h3 i).2

theorem frame_init (G : GRAPH) (s : Nat) (hlen : G.V.length = G.num_vertices) :
    Frame G (initSingleSource G s) := by
  obtain ⟨h1, h2, h3⟩ := initSingleSource_spec G s hlen
  refine ⟨h1, h2, fun i => ?_⟩
  unfold GRAPH.adj
  rw [h3]
  split <;> exact ⟨rfl, rfl⟩

theorem dijkstra_inv (P : GRAPH → Prop) (G : GRAPH) (s : Nat)
    (hlen : G.V.length = G.num_vertices)
    (h0 : P (initSingleSource G s))
    (hstep : ∀ G' u, P G' → u < G.num_vertices → P (relaxAdj G' u (G'.adj u))) :
    ∃ G', dijkstra G s = some G' ∧ P G' := by
  obtain ⟨_, hnum, _⟩ := initSingleSource_spec G s hlen
  obtain ⟨Q, e, e1, e2, _, e4, _⟩ := populate_spec (initSingleSource G s)
    (List.range G.num_vertices) (createMinHeap G.num_vertices) (createMinHeap_wf _)
    (by simp [createMinHeap])
  have hent : ∀ x ∈ Q.entries, x < G.num_vertices := by
    intro x hx
    rw [e4] at hx
    simpa [MIN_HEAP.entries, createMinHeap] using hx
  obtain ⟨G', e', hP⟩ := drain_inv P G.num_vertices hstep G.num_vertices
    (initSingleSource G s) Q e1 (by simpa [createMinHeap] using le_of_eq e2) hent h0
  refine ⟨G', ?_, hP⟩
  unfold dijkstra
  simp only [hnum, e]
  exact e'

theorem dijkstra_congr (G G2 : GRAPH) (s : Nat) (hlen : G.V.length = G.num_vertices)
    (hl : G2.V.length = G.V.length) (hn : G2.num_vertices = G.num_vertices)
    (h : ∀ i, G2.adj i = G.adj i ∧ (G2.vtx i).index = (G.vtx i).index) :
    dijkstra G2 s = dijkstra G s := by
  have e : initSingleSource G2 s = initSingleSource G s := by
    obtain ⟨a1, a2, a3⟩ := initSingleSource_spec G s hlen
    obtain ⟨b1, b2, b3⟩ := initSingleSource_spec G2 s (by omega)
    apply GRAPH.ext_vtx _ _ (by omega) (by omega)
    intro i
    rw [a3, b3, hn]
    have hi := h i
    unfold GRAPH.adj at hi
    split
    · rw [hi.1, hi.2]
    · rename_i hge
      unfold GRAPH.vtx
      rw [List.getD_eq_default _ _ (by omega), List.getD_eq_default _ _ (by omega)]
  unfold dijkstra
  rw [e]

/-! ## The claims

The comments name vertices by the numbers the program reads and prints, which
are one more than the array indices used in the statements. -/

/-- C1 (evaluation at a failing input). On `chainGraph`, whose weights are all
positive, vertex 4 is reached from vertex 1 by the walk `1 -> 3 -> 2 -> 4` of
total weight 3, yet `dijkstra` from vertex 1 leaves its key at `FLT_MAX`: vertex
2 is extracted while its key is still `FLT_MAX`, and its edge to vertex 4 is
never relaxed again after the key of vertex 2 has dropped to 2. -/
theorem dijkstra_misses_shortest_distance :
    Walk chainGraph 0 3 3 ∧ (∀ i < 4, ∀ e ∈ chainGraph.adj i, 0 ≤ e.w) ∧
    (dijkstra chainGraph 0).map (fun G => G.key 3) = some FLT_MAX := by
  refine ⟨?_, by decide!, by decide!⟩
  have h := Walk.cons (G := chainGraph) ⟨3, 1⟩
    (Walk.cons ⟨1, 1⟩ (Walk.cons ⟨2, 1⟩ (Walk.nil 0) (by decide!)) (by decide!)) (by decide!)
  have e : (0 : ℚ) + 1 + 1 + 1 = 3 := by norm_num
  simpa only [e] using h

/-- C2 (evaluation at a failing input). On `zeroCycleGraph`, whose weights are
all zero, `dijkstra` from vertex 1 ends with key 0 on vertex 2 and with the
predecessor links `2 -> 1` and `1 -> 2`; following them never reaches a vertex
without predecessor, so `printPath` of vertex 2 returns for no amount of
fuel. -/
theorem printPath_diverges_on_zero_weight_cycle :
    (∀ i < 2, ∀ e ∈ zeroCycleGraph.adj i, 0 ≤ e.w) ∧
    ∃ G', dijkstra zeroCycleGraph 0 = some G' ∧ G'.key 1 = 0 ∧ G'.key 1 < FLT_MAX ∧
      G'.pi 1 = some 0 ∧ G'.pi 0 = some 1 ∧ ∀ fuel, printPath G' fuel 1 = none := by
  refine ⟨by decide!, ⟨2, [⟨0, 0, some 1, [⟨1, 0⟩]⟩, ⟨1, 0, some 0, [⟨0, 0⟩]⟩]⟩,
    by decide!, by decide!, by decide!, by decide!, by decide!, ?_⟩
  intro fuel
  have key : ∀ fuel, printPath ⟨2, [⟨0, 0, some 1, [⟨1, 0⟩]⟩, ⟨1, 0, some 0, [⟨0, 0⟩]⟩]⟩ fuel 0 = none ∧
      printPath ⟨2, [⟨0, 0, some 1, [⟨1, 0⟩]⟩, ⟨1, 0, some 0, [⟨0, 0⟩]⟩]⟩ fuel 1 = none := by
    intro fuel
    induction fuel with
    | zero => exact ⟨rfl, rfl⟩
    | succ fuel ih =>
      constructor
      · show Option.map _ (printPath _ fuel 1) = none
        rw [ih.2]; rfl
      · show Option.map _ (printPath _ fuel 0) = none
        rw [ih.1]; rfl
  exact (key fuel).2

/-- C3 (evaluation at a failing input). On `detourGraph`, whose weights are all
positive, `dijkstra` from vertex 1 ends with the predecessor path
`1 -> 3 -> 2 -> 4`, whose edges have the weights 1, 1 and 1, and with key 11 on
vertex 4; the predecessor of vertex 4 is vertex 2, of final key 2, and the key
of vertex 4 is not the key of vertex 2 plus the weight of an edge `2 -> 4`. -/
theorem predecessor_path_weight_differs_from_key :
    (∀ i < 4, ∀ e ∈ detourGraph.adj i, 0 ≤ e.w) ∧
    ∃ G', dijkstra detourGraph 0 = some G' ∧ printPath G' 4 3 = some [0, 2, 1, 3] ∧
      G'.adj 0 = [⟨1, 10⟩, ⟨2, 1⟩] ∧ G'.adj 2 = [⟨1, 1⟩] ∧ G'.adj 1 = [⟨3, 1⟩] ∧
      G'.key 3 = 11 ∧ G'.pi 3 = some 1 ∧ G'.key 1 = 2 ∧
      ∀ e ∈ G'.adj 1, e.v = 3 → G'.key 3 ≠ G'.key 1 + e.w := by
  refine ⟨by decide!, ⟨4, [⟨0, 0, none, [⟨1, 10⟩, ⟨2, 1⟩]⟩, ⟨1, 2, some 2, [⟨3, 1⟩]⟩,
    ⟨2, 1, some 0, [⟨1, 1⟩]⟩, ⟨3, 11, some 1, []⟩]⟩, by decide!, by decide!, by decide!,
    by decide!, by decide!, by decide!, by decide!, by decide!, by decide!⟩

/-- C4. Running `dijkstra` from `s` on the graph that `dijkstra` from `s`
produced gives that graph again, and `dijkstra` gives the same result on every
graph with the same vertex count, vertex indices and adjacency lists, whatever
keys and predecessors it holds before the run. -/
theorem dijkstra_idempotent (G : GRAPH) (s : Nat) (hwf : G.WF) (hs : s < G.num_vertices) :
    ∃ G1, dijkstra G s = some G1 ∧ dijkstra G1 s = some G1 ∧
      ∀ G2 : GRAPH, G2.num_vertices = G.num_vertices → G2.V.length = G.V.length →
        (∀ i, G2.adj i = G.adj i ∧ (G2.vtx i).index = (G.vtx i).index) →
        dijkstra G2 s = some G1 := by
  have _ := hs
  obtain ⟨G1, e, hf⟩ := dijkstra_inv (Frame G) G s hwf.1 (frame_init G s hwf.1)
    (fun G' u h _ => relaxAdj_inv (Frame G) u (fun _ => True)
      (fun G'' e h' _ => frame_relax G G'' u e.v e.w h') _ G' (fun _ _ => trivial) h)
  refine ⟨G1, e, ?_, ?_⟩
  · rw [dijkstra_congr G G1 s hwf.1 hf.1 hf.2.1 hf.2.2, e]
  · intro G2 hn hl h
    rw [dijkstra_congr G G2 s hwf.1 hl hn h, e]

theorem dijkstra_idempotent_witness :
    (exampleGraph 2).WF ∧ 0 < (exampleGraph 2).num_vertices ∧
    ∃ G1, dijkstra (exampleGraph 2) 0 = some G1 ∧ dijkstra G1 0 = some G1 ∧
      ∀ G2 : GRAPH, G2.num_vertices = (exampleGraph 2).num_vertices →
        G2.V.length = (exampleGraph 2).V.length →
        (∀ i, G2.adj i = (exampleGraph 2).adj i ∧
          (G2.vtx i).index = ((exampleGraph 2).vtx i).index) →
        dijkstra G2 0 = some G1 :=
  ⟨by decide!, by decide!, dijkstra_idempotent (exampleGraph 2) 0 (by decide!) (by decide!)⟩

/-- C5. A vertex `x` other than the source to which no edge of the graph leads
has key `FLT_MAX` and no predecessor after `dijkstra`; `printPath` of `x` prints
`x` alone, and the source is not on the printed chain. -/
theorem dijkstra_isolated_vertex_unreached (G : GRAPH) (s x : Nat) (hwf : G.WF) (hs : s < G.num_vertices)
    (hx : x < G.num_vertices) (hxs : x ≠ s)
    (hin : ∀ i < G.num_vertices, ∀ e ∈ G.adj i, e.v ≠ x) :
    ∃ G', dijkstra G s = some G' ∧ G'.key x = FLT_MAX ∧ G'.pi x = none ∧
      (∀ fuel, printPath G' (fuel + 1) x = some [x]) ∧
      ∀ fuel p, printPath G' fuel x = some p → s ∉ p := by
  have _ := hs
  obtain ⟨G', e, hf, hk, hp⟩ := dijkstra_inv
    (fun G' => Frame G G' ∧ G'.key x = FLT_MAX ∧ G'.pi x = none) G s hwf.1
    (by
      refine ⟨frame_init G s hwf.1, ?_, ?_⟩
      · unfold GRAPH.key
        rw [(initSingleSource_spec G s hwf.1).2.2, if_pos hx]
        simp [hxs]
      · unfold GRAPH.pi
        rw [(initSingleSource_spec G s hwf.1).2.2, if_pos hx])
    (by
      intro G' u h hu
      refine relaxAdj_inv (fun G' => Frame G G' ∧ G'.key x = FLT_MAX ∧ G'.pi x = none) u
        (fun e => e.v ≠ x) ?_ _ G' ?_ h
      · intro G'' e h' he
        refine ⟨frame_relax G G'' u e.v e.w h'.1, ?_, ?_⟩
        · unfold GRAPH.key
          rw [relax_vtx_ne _ _ _ _ _ (Ne.symm he)]
          exact h'.2.1
        · unfold GRAPH.pi
          rw [relax_vtx_ne _ _ _ _ _ (Ne.symm he)]
          exact h'.2.2
      · intro e he
        rw [(h.1.2.2 u).1] at he
        exact hin u hu e he)
  have hpath : ∀ fuel, printPath G' (fuel + 1) x = some [x] := by
    intro fuel
    unfold printPath
    rw [hp]
  refine ⟨G', e, hk, hp, hpath, ?_⟩
  intro fuel p hpp
  cases fuel with
  | zero => simp [printPath] at hpp
  | succ fuel =>
    rw [hpath fuel] at hpp
    cases hpp
    simpa using Ne.symm hxs

theorem dijkstra_isolated_vertex_unreached_witness :
    isolatedGraph.WF ∧ 0 < isolatedGraph.num_vertices ∧ 2 < isolatedGraph.num_vertices ∧
    (2 : Nat) ≠ 0 ∧ (∀ i < isolatedGraph.num_vertices, ∀ e ∈ isolatedGraph.adj i, e.v ≠ 2) ∧
    ∃ G', dijkstra isolatedGraph 0 = some G' ∧ G'.key 2 = FLT_MAX ∧ G'.pi 2 = none ∧
      (∀ fuel, printPath G' (fuel + 1) 2 = some [2]) ∧
      ∀ fuel p, printPath G' fuel 2 = some p → 0 ∉ p :=
  ⟨by decide!, by decide!, by decide!, by decide, by decide!,
    dijkstra_isolated_vertex_unreached isolatedGraph 0 2 (by decide!) (by decide!)
      (by decide!) (by decide) (by decide!)⟩

/-- C6. On the graph with the edges `1 -> 2` of weight 1, `2 -> 3` of weight 2
and `1 -> 3` of weight 5, built with `addEdge` (`flag = 1`) or with
`addEdgeReverse` (any other `flag`), `dijkstra` from vertex 1 ends with key 1 on
vertex 2 and key 3 on vertex 3, and `printPath` of vertex 3 prints the vertices
1, 2, 3. -/
theorem dijkstra_example_three_vertices (flag : Int) :
    ∃ G', dijkstra (exampleGraph flag) 0 = some G' ∧ G'.key 1 = 1 ∧ G'.key 2 = 3 ∧
      (printPath G' 3 2).map (List.map (label G')) = some [1, 2, 3] := by
  by_cases h : flag = 1
  · subst h
    exact ⟨⟨3, [⟨0, 0, none, [⟨2, 5⟩, ⟨1, 1⟩]⟩, ⟨1, 1, some 0, [⟨2, 2⟩]⟩, ⟨2, 3, some 1, []⟩]⟩,
      by decide!, by decide!, by decide!, by decide!⟩
  · have e : exampleGraph flag = exampleGraph 2 := by
      simp [exampleGraph, readGraph, h]
    rw [e]
    exact ⟨⟨3, [⟨0, 0, none, [⟨1, 1⟩, ⟨2, 5⟩]⟩, ⟨1, 1, some 0, [⟨2, 2⟩]⟩, ⟨2, 3, some 1, []⟩]⟩,
      by decide!, by decide!, by decide!, by decide!⟩

/-- C7. On a non-empty heap in min-heap order, `extractMin` returns an entry
whose key is at most the key of every entry of the heap, decreases `size` by
one, leaves the other entries in the heap (as a multiset) and leaves the heap in
min-heap order. -/
theorem extractMin_correct (G : GRAPH) (heap : MIN_HEAP) (hwf : heap.WF) (hne : heap.size ≠ 0)
    (hord : HeapOrdered G heap) :
    ∃ root heap', extractMin G heap = some (some root, heap') ∧
      (∀ x ∈ heap.entries, G.key root ≤ G.key x) ∧
      heap'.size + 1 = heap.size ∧
      root ::ₘ heap'.entries = heap.entries ∧
      HeapOrdered G heap' := by
  obtain ⟨heap', e, e1, _, e3, e4⟩ := extractMin_some G heap hwf hne
  refine ⟨heap.at 0, heap', e, ?_, e1, e3, e4 hord⟩
  intro x hx
  unfold MIN_HEAP.entries at hx
  rw [Multiset.mem_map] at hx
  obtain ⟨i, hi, rfl⟩ := hx
  exact root_le G heap hord i (Multiset.mem_range.mp hi)

theorem extractMin_correct_witness :
    exampleHeap.WF ∧ exampleHeap.size ≠ 0 ∧
    HeapOrdered (initSingleSource (exampleGraph 2) 0) exampleHeap ∧
    ∃ root heap', extractMin (initSingleSource (exampleGraph 2) 0) exampleHeap
        = some (some root, heap') ∧
      (∀ x ∈ exampleHeap.entries, (initSingleSource (exampleGraph 2) 0).key root
        ≤ (initSingleSource (exampleGraph 2) 0).key x) ∧
      heap'.size + 1 = exampleHeap.size ∧
      root ::ₘ heap'.entries = exampleHeap.entries ∧
      HeapOrdered (initSingleSource (exampleGraph 2) 0) heap' :=
  ⟨by decide!, by decide!, by decide!,
    extractMin_correct (initSingleSource (exampleGraph 2) 0) exampleHeap
      (by decide!) (by decide!) (by decide!)⟩

/-- C8. On a heap with `size < capacity` in min-heap order, `insertMinHeap`
increases `size` by one, adds `v` to the entries of the heap (as a multiset) and
leaves the heap in min-heap order. -/
theorem insertMinHeap_correct (G : GRAPH) (heap : MIN_HEAP) (v : Nat) (hwf : heap.WF)
    (hlt : heap.size < heap.capacity) (hord : HeapOrdered G heap) :
    ∃ heap', insertMinHeap G heap v = some heap' ∧
      heap'.size = heap.size + 1 ∧
      heap'.entries = v ::ₘ heap.entries ∧
      HeapOrdered G heap' := by
  obtain ⟨heap', e, e1, _, _, e4, e5⟩ := insertMinHeap_some G heap v hwf hlt
  exact ⟨heap', e, e1, e4, e5 hord⟩

theorem insertMinHeap_correct_witness :
    pairHeap.WF ∧ pairHeap.size < pairHeap.capacity ∧
    HeapOrdered (initSingleSource (exampleGraph 2) 1) pairHeap ∧
    insertMinHeap (initSingleSource (exampleGraph 2) 1) pairHeap 1 = some ⟨[1, 2, 0], 3, 3⟩ ∧
    ∃ heap', insertMinHeap (initSingleSource (exampleGraph 2) 1) pairHeap 1 = some heap' ∧
      heap'.size = pairHeap.size + 1 ∧
      heap'.entries = 1 ::ₘ pairHeap.entries ∧
      HeapOrdered (initSingleSource (exampleGraph 2) 1) heap' :=
  ⟨by decide!, by decide!, by decide!, by decide!,
    insertMinHeap_correct (initSingleSource (exampleGraph 2) 1) pairHeap 1
      (by decide!) (by decide!) (by decide!)⟩

theorem log2Fuel_eq (fuel n : Nat) (h : n ≤ fuel) : log2Fuel fuel n = Nat.log2 n := by
  induction fuel generalizing n with
  | zero =>
    have h0 : n = 0 := by omega
    subst h0
    unfold log2Fuel
    rw [Nat.log2]
    simp
  | succ fuel ih =>
    unfold log2Fuel
    rw [Nat.log2]
    by_cases c : 2 ≤ n
    · rw [if_pos c, if_pos c, ih (n / 2) (by omega)]
    · rw [if_neg c, if_neg c]

theorem addF32_FLT_MAX_one : addF32 FLT_MAX 1 = FLT_MAX := by decide!

theorem addF32_two_pow_24_one : addF32 16777216 1 = 16777216 := by decide!

theorem addF32_two_pow_24_three : addF32 16777216 3 = 16777220 := by decide!

theorem addF32_exact_small : addF32 1 2 = 3 ∧ addF32 (1 / 2) (1 / 4) = 3 / 4 := by decide!

theorem relaxWith_vtx_ne (add : ℚ → ℚ → ℚ) (G : GRAPH) (u v x : Nat) (w : ℚ) (hx : x ≠ v) :
    (relaxWith add G u v w).vtx x = G.vtx x := by
  unfold relaxWith
  split
  · exact GRAPH.vtx_setV_ne _ _ _ _ hx
  · rfl

theorem relaxWith_fire (add : ℚ → ℚ → ℚ) (G : GRAPH) (u v : Nat) (w : ℚ)
    (hv : v < G.V.length) (h : G.key v ≥ add (G.key u) w) :
    (relaxWith add G u v w).vtx v
      = { G.vtx v with key := add (G.key u) w, pi := some u } := by
  unfold relaxWith
  rw [if_pos h]
  exact GRAPH.vtx_setV_same _ _ _ hv

theorem relaxWith_skip (add : ℚ → ℚ → ℚ) (G : GRAPH) (u v : Nat) (w : ℚ)
    (h : ¬ G.key v ≥ add (G.key u) w) : relaxWith add G u v w = G := by
  unfold relaxWith
  rw [if_neg h]

theorem relaxWith_frame (add : ℚ → ℚ → ℚ) (G : GRAPH) (u v : Nat) (w : ℚ) (i : Nat) :
    ((relaxWith add G u v w).vtx i).index = (G.vtx i).index ∧
    (relaxWith add G u v w).adj i = G.adj i ∧
    (relaxWith add G u v w).num_vertices = G.num_vertices ∧
    (relaxWith add G u v w).V.length = G.V.length := by
  unfold relaxWith GRAPH.adj
  split
  · rw [GRAPH.vtx_setV]
    split
    · rename_i h
      rw [h.1]
      exact ⟨rfl, rfl, rfl, by simp⟩
    · exact ⟨rfl, rfl, rfl, by simp⟩
  · exact ⟨rfl, rfl, rfl, rfl⟩

/-- C9. With the keys read before the call and `add` the addition that computes
the sum `key(u) + w` (binary32 addition `addF32` in the program, which rounds;
exact addition in `relax`), `relax(u, v, w)` sets the key of `v` to that sum and
its predecessor to `u` when `key(v) >= key(u) + w`, and leaves both unchanged
otherwise; on a tie `key(v) = key(u) + w` the predecessor is overwritten with
`u`, so of two edges into `v` reaching the same sum the one relaxed last is
recorded; no other vertex and no other field of `v` changes. -/
theorem relax_correct (add : ℚ → ℚ → ℚ) (G : GRAPH) (u v : Nat) (w : ℚ)
    (hu : u < G.V.length) (hv : v < G.V.length) :
    (G.key v ≥ add (G.key u) w →
      (relaxWith add G u v w).key v = add (G.key u) w ∧
      (relaxWith add G u v w).pi v = some u) ∧
    (¬ G.key v ≥ add (G.key u) w →
      (relaxWith add G u v w).key v = G.key v ∧ (relaxWith add G u v w).pi v = G.pi v) ∧
    (G.key v = add (G.key u) w → (relaxWith add G u v w).pi v = some u) ∧
    (∀ u2 w2, u2 ≠ v → G.key v ≥ add (G.key u) w →
      add (G.key u2) w2 = add (G.key u) w →
      (relaxWith add (relaxWith add G u v w) u2 v w2).pi v = some u2) ∧
    (∀ x, x ≠ v → (relaxWith add G u v w).vtx x = G.vtx x) ∧
    ((relaxWith add G u v w).vtx v).index = (G.vtx v).index ∧
    (relaxWith add G u v w).adj v = G.adj v ∧
    (relaxWith add G u v w).num_vertices = G.num_vertices := by
  have _ := hu
  have fire : G.key v ≥ add (G.key u) w →
      (relaxWith add G u v w).key v = add (G.key u) w ∧
      (relaxWith add G u v w).pi v = some u := by
    intro h
    unfold GRAPH.key GRAPH.pi
    rw [relaxWith_fire add G u v w hv h]
    exact ⟨rfl, rfl⟩
  refine ⟨fire, ?_, fun h => (fire (le_of_eq h.symm)).2, ?_,
    fun x hx => relaxWith_vtx_ne add G u v x w hx, (relaxWith_frame add G u v w v).1,
    (relaxWith_frame add G u v w v).2.1, (relaxWith_frame add G u v w v).2.2.1⟩
  · intro h
    rw [relaxWith_skip add G u v w h]
    exact ⟨rfl, rfl⟩
  · intro u2 w2 hne h htie
    have h2 : (relaxWith add G u v w).key v ≥ add ((relaxWith add G u v w).key u2) w2 := by
      rw [(fire h).1]
      unfold GRAPH.key
      rw [relaxWith_vtx_ne add G u v u2 w hne]
      exact le_of_eq htie
    unfold GRAPH.pi
    rw [relaxWith_fire add _ u2 v w2
      (by rw [(relaxWith_frame add G u v w 0).2.2.2]; exact hv) h2]

theorem relax_correct_witness :
    0 < (createGraph 2).V.length ∧ 1 < (createGraph 2).V.length ∧
    (createGraph 2).key 0 = FLT_MAX ∧ (createGraph 2).key 1 = FLT_MAX ∧
    (createGraph 2).key 1 ≥ addF32 ((createGraph 2).key 0) 1 ∧
    ((relaxWith addF32 (createGraph 2) 0 1 1).key 1 = addF32 ((createGraph 2).key 0) 1 ∧
      (relaxWith addF32 (createGraph 2) 0 1 1).pi 1 = some 0) ∧
    0 < roundingGraph.V.length ∧ 1 < roundingGraph.V.length ∧
    roundingGraph.key 1 ≥ addF32 (roundingGraph.key 0) 1 ∧
    ((relaxWith addF32 roundingGraph 0 1 1).key 1 = addF32 (roundingGraph.key 0) 1 ∧
      (relaxWith addF32 roundingGraph 0 1 1).pi 1 = some 0) :=
  ⟨by decide!, by decide!, by decide!, by decide!, by decide!,
    (relax_correct addF32 (createGraph 2) 0 1 1 (by decide!) (by decide!)).1 (by decide!),
    by decide!, by decide!, by decide!,
    (relax_correct addF32 roundingGraph 0 1 1 (by decide!) (by decide!)).1 (by decide!)⟩

/-- C10 (counterexample). After a second `addEdge` on the same vertex the
adjacency list is not the previous list followed by the new edge. -/
theorem addEdge_not_append :
    (addEdge (addEdge (createGraph 1) 0 0 1) 0 0 2).adj 0
      ≠ (addEdge (createGraph 1) 0 0 1).adj 0 ++ [⟨0, 2⟩] := by
  decide!

theorem addEdge_adj (G : GRAPH) (u v : Nat) (w : ℚ) (hu : u < G.V.length) :
    (addEdge G u v w).adj u = ⟨v, w⟩ :: G.adj u := by
  unfold addEdge GRAPH.adj
  rw [GRAPH.vtx_setV_same _ _ _ hu]

/-- C10 (amended). `addEdge` puts the new edge in front: the adjacency list of
`u` after `addEdge(G, u, v, w)` is `(v, w)` followed by the list before, so
after inserting the edges `es` in this order with `addEdge` the list of `u`
holds them in reverse insertion order, in front of what it held before. -/
theorem addEdge_prepends (G : GRAPH) (u v : Nat) (w : ℚ) (hu : u < G.V.length) :
    (addEdge G u v w).adj u = ⟨v, w⟩ :: G.adj u ∧
    ∀ es : List NODE,
      (es.foldl (fun G e => addEdge G u e.v e.w) G).adj u = es.reverse ++ G.adj u := by
  refine ⟨addEdge_adj G u v w hu, ?_⟩
  intro es
  induction es generalizing G with
  | nil => rfl
  | cons e es ih =>
    rw [List.foldl_cons, ih _ (by simpa [addEdge] using hu), addEdge_adj G u e.v e.w hu]
    simp

theorem addEdge_prepends_witness :
    0 < (exampleGraph 2).V.length ∧
    (exampleGraph 2).adj 0 = [⟨1, 1⟩, ⟨2, 5⟩] ∧
    (addEdge (exampleGraph 2) 0 1 7).adj 0 = [⟨1, 7⟩, ⟨1, 1⟩, ⟨2, 5⟩] ∧
    (addEdge (exampleGraph 2) 0 1 7).adj 0 ≠ (exampleGraph 2).adj 0 ++ [⟨1, 7⟩] ∧
    ((addEdge (exampleGraph 2) 0 1 7).adj 0 = ⟨1, 7⟩ :: (exampleGraph 2).adj 0 ∧
      ∀ es : List NODE,
        (es.foldl (fun G e => addEdge G 0 e.v e.w) (exampleGraph 2)).adj 0
          = es.reverse ++ (exampleGraph 2).adj 0) :=
  ⟨by decide!, by decide!, by decide!, by decide!,
    addEdge_prepends (exampleGraph 2) 0 1 7 (by decide!)⟩

/-! ## Further lemmas on the engine -/

theorem addEdgeReverse_eq (G : GRAPH) (u v : Nat) (w : ℚ) :
    addEdgeReverse G u v w = G.setV u { G.vtx u with adj := (G.vtx u).adj ++ [⟨v, w⟩] } := by
  unfold addEdgeReverse
  split
  · rename_i h; rw [h]; rfl
  · rename_i c rest h; rw [h]

theorem relax_key_le (G : GRAPH) (u v : Nat) (w : ℚ) (x : Nat) :
    (relax G u v w).key x ≤ G.key x := by
  rw [relax_eq]
  split
  · rename_i h
    unfold GRAPH.key
    rw [GRAPH.vtx_setV]
    split
    · rename_i h2
      rw [h2.1]
      exact h
    · exact le_refl _
  · exact le_refl _

theorem relaxAdj_key_le (u : Nat) (x : Nat) : ∀ (l : List NODE) (G : GRAPH),
    (relaxAdj G u l).key x ≤ G.key x := by
  intro l
  induction l with
  | nil => intro G; exact le_refl _
  | cons a l ih =>
    intro G
    unfold relaxAdj
    exact le_trans (ih _) (relax_key_le G u a.v a.w x)

theorem drain_key_le (x : Nat) : ∀ (fuel : Nat) (G G' : GRAPH) (Q : MIN_HEAP),
    drain fuel G Q = some G' → G'.key x ≤ G.key x := by
  intro fuel
  induction fuel with
  | zero =>
    intro G G' Q h
    unfold drain at h
    split at h
    · cases h; exact le_refl _
    · cases h
  | succ fuel ih =>
    intro G G' Q h
    unfold drain at h
    split at h
    · cases h; exact le_refl _
    · split at h
      · exact le_trans (ih _ _ _ h) (relaxAdj_key_le _ x _ G)
      · cases h

theorem drainLog_snd : ∀ (fuel : Nat) (G : GRAPH) (Q : MIN_HEAP),
    (drainLog fuel G Q).map Prod.snd = drain fuel G Q := by
  intro fuel
  induction fuel with
  | zero =>
    intro G Q
    unfold drainLog drain
    split <;> rfl
  | succ fuel ih =>
    intro G Q
    unfold drainLog drain
    split
    · rfl
    · split
      · rename_i u Q' h
        simp only [h, Option.map_map]
        rw [← ih]
        rfl
      · rfl

theorem dijkstraLog_snd (G : GRAPH) (s : Nat) :
    (dijkstraLog G s).map Prod.snd = dijkstra G s := by
  unfold dijkstraLog dijkstra
  simp only []
  split
  · exact drainLog_snd _ _ _
  · rfl

theorem drainLog_spec : ∀ (fuel : Nat) (G : GRAPH) (Q : MIN_HEAP), Q.WF → Q.size ≤ fuel →
    ∃ log G', drainLog fuel G Q = some (log, G') ∧ log.length = Q.size ∧
      ((log.map Prod.fst : List Nat) : Multiset Nat) = Q.entries := by
  intro fuel
  induction fuel with
  | zero =>
    intro G Q _ hs
    have h0 : Q.size = 0 := by omega
    refine ⟨[], G, by simp [drainLog, isEmpty, h0], by simp [h0], ?_⟩
    simp [MIN_HEAP.entries, h0]
  | succ fuel ih =>
    intro G Q hwf hs
    by_cases h0 : Q.size = 0
    · refine ⟨[], G, by simp [drainLog, isEmpty, h0], by simp [h0], ?_⟩
      simp [MIN_HEAP.entries, h0]
    · obtain ⟨Q', e, e1, e2, e3, _⟩ := extractMin_some G Q hwf h0
      obtain ⟨log, G', e', hl, hm⟩ := ih (relaxAdj G (Q.at 0) (G.adj (Q.at 0))) Q' e2 (by omega)
      refine ⟨(Q.at 0, Q', G) :: log, G', ?_, by simp [hl, e1], ?_⟩
      · unfold drainLog
        simp only [isEmpty, h0, decide_False, Bool.false_eq_true, if_false, e, e',
          Option.map_some']
      · rw [← e3, ← hm]
        rfl

theorem key_relax (G : GRAPH) (u v : Nat) (w : ℚ) (x : Nat) (hv : v < G.V.length) :
    (relax G u v w).key x =
      if x = v ∧ G.key v ≥ G.key u + w then G.key u + w else G.key x := by
  by_cases h : G.key v ≥ G.key u + w
  · by_cases hx : x = v
    · subst hx
      have hf := relax_fire G u x w hv h
      rw [if_pos ⟨rfl, h⟩]
      show ((relax G u x w).vtx x).key = _
      rw [hf]
    · unfold GRAPH.key
      rw [relax_vtx_ne G u v x w hx, if_neg (fun c => hx c.1)]
  · rw [relax_skip G u v w h, if_neg (fun c => h c.2)]

theorem pi_relax (G : GRAPH) (u v : Nat) (w : ℚ) (x : Nat) (hv : v < G.V.length) :
    (relax G u v w).pi x =
      if x = v ∧ G.key v ≥ G.key u + w then some u else G.pi x := by
  by_cases h : G.key v ≥ G.key u + w
  · by_cases hx : x = v
    · subst hx
      have hf := relax_fire G u x w hv h
      rw [if_pos ⟨rfl, h⟩]
      show ((relax G u x w).vtx x).pi = _
      rw [hf]
    · unfold GRAPH.pi
      rw [relax_vtx_ne G u v x w hx, if_neg (fun c => hx c.1)]
  · rw [relax_skip G u v w h, if_neg (fun c => h c.2)]

theorem reached_init (G : GRAPH) (s : Nat) (hlen : G.V.length = G.num_vertices)
    (hs : s < G.num_vertices) : Reached G s (initSingleSource G s) := by
  obtain ⟨h1, h2, h3⟩ := initSingleSource_spec G s hlen
  have hk : ∀ x, (initSingleSource G s).key x =
      if x < G.num_vertices then (if x = s then 0 else FLT_MAX) else G.key x := by
    intro x
    unfold GRAPH.key
    rw [h3]
    split <;> rfl
  have hmax : (0 : ℚ) ≤ FLT_MAX := by unfold FLT_MAX; norm_num
  refine ⟨frame_init G s hlen, ?_, ?_, ?_, ?_⟩
  · rw [hk, if_pos hs, if_pos rfl]
  · intro x
    rw [hk]
    split
    · split
      · exact le_refl _
      · exact hmax
    · rename_i hx
      unfold GRAPH.key GRAPH.vtx
      rw [List.getD_eq_default _ _ (by omega)]
      exact le_refl _
  · intro x hx
    rw [hk, if_pos hx]
    split
    · exact hmax
    · exact le_refl _
  · intro x hx hne
    rw [hk, if_pos hx] at hne ⊢
    by_cases hxs : x = s
    · subst hxs
      rw [if_pos rfl]
      exact Walk.nil x
    · rw [if_neg hxs] at hne
      exact absurd rfl hne

theorem reached_relax (G : GRAPH) (s : Nat) (hwf : G.WF)
    (hnn : ∀ i < G.num_vertices, ∀ e ∈ G.adj i, 0 ≤ e.w)
    (G' : GRAPH) (u : Nat) (hu : u < G.num_vertices) (e : NODE) (he : e ∈ G.adj u)
    (h : Reached G s G') : Reached G s (relax G' u e.v e.w) := by
  obtain ⟨hf, hs0, hge, hle, hwalk⟩ := h
  have hv : e.v < G'.V.length := by
    rw [hf.1, hwf.1]; exact hwf.2 u hu e he
  have hvn : e.v < G.num_vertices := hwf.2 u hu e he
  have hw := hnn u hu e he
  refine ⟨frame_relax G G' u e.v e.w hf, ?_, ?_, ?_, ?_⟩
  · rw [key_relax _ _ _ _ _ hv]
    split
    · rename_i c
      rw [c.1] at hs0
      have := hge u
      have h2 := c.2
      rw [hs0] at h2
      linarith
    · exact hs0
  · intro x
    rw [key_relax _ _ _ _ _ hv]
    split
    · have := hge u; linarith
    · exact hge x
  · intro x hx
    rw [key_relax _ _ _ _ _ hv]
    split
    · rename_i c
      exact le_trans c.2 (hle e.v hvn)
    · exact hle x hx
  · intro x hx
    rw [key_relax _ _ _ _ _ hv]
    split
    · rename_i c
      intro hne
      have hku : G'.key u ≠ FLT_MAX := by
        intro hku
        apply hne
        have h1 := le_trans c.2 (hle e.v hvn)
        rw [hku] at h1 ⊢
        linarith
      rw [c.1]
      exact Walk.cons e (hwalk u hu hku) he
    · exact hwalk x hx

theorem reached_relaxAdj (G : GRAPH) (s : Nat) (hwf : G.WF)
    (hnn : ∀ i < G.num_vertices, ∀ e ∈ G.adj i, 0 ≤ e.w)
    (G' : GRAPH) (u : Nat) (hu : u < G.num_vertices)
    (h : Reached G s G') : Reached G s (relaxAdj G' u (G'.adj u)) := by
  refine relaxAdj_inv (Reached G s) u (fun e => e ∈ G.adj u) ?_ _ G' ?_ h
  · intro G'' e h' he
    exact reached_relax G s hwf hnn G'' u hu e he h'
  · intro e he
    rw [(h.1.2.2 u).1] at he
    exact he

theorem tree_init (G : GRAPH) (s : Nat) (hlen : G.V.length = G.num_vertices)
    (hs : s < G.num_vertices) : Tree G s (initSingleSource G s) := by
  obtain ⟨hf, h0, hge, hle, _⟩ := reached_init G s hlen hs
  obtain ⟨_, _, h3⟩ := initSingleSource_spec G s hlen
  have hp : ∀ x < G.num_vertices, (initSingleSource G s).pi x = none := by
    intro x hx
    unfold GRAPH.pi
    rw [h3, if_pos hx]
  refine ⟨hf, h0, hp s hs, hge, hle, ?_, ?_⟩
  · intro x hx hxs _
    unfold GRAPH.key
    rw [h3, if_pos hx]
    simp [hxs]
  · intro x hx u hu
    rw [hp x hx] at hu
    cases hu

theorem tree_relax (G : GRAPH) (s : Nat) (hwf : G.WF)
    (hpos : ∀ i < G.num_vertices, ∀ e ∈ G.adj i, 0 < e.w)
    (G' : GRAPH) (u : Nat) (hu : u < G.num_vertices) (e : NODE) (he : e ∈ G.adj u)
    (h : Tree G s G') : Tree G s (relax G' u e.v e.w) := by
  obtain ⟨hf, hs0, hps, hge, hle, hnone, hsome⟩ := h
  have hv : e.v < G'.V.length := by
    rw [hf.1, hwf.1]; exact hwf.2 u hu e he
  have hvn : e.v < G.num_vertices := hwf.2 u hu e he
  have hw := hpos u hu e he
  have hku := hge u
  have hsrc : ¬ (s = e.v ∧ G'.key e.v ≥ G'.key u + e.w) := by
    rintro ⟨c1, c2⟩
    rw [← c1, hs0] at c2
    linarith
  refine ⟨frame_relax G G' u e.v e.w hf, ?_, ?_, ?_, ?_, ?_, ?_⟩
  · rw [key_relax _ _ _ _ _ hv, if_neg hsrc]; exact hs0
  · rw [pi_relax _ _ _ _ _ hv, if_neg hsrc]; exact hps
  · intro x
    rw [key_relax _ _ _ _ _ hv]
    split
    · linarith
    · exact hge x
  · intro x hx
    rw [key_relax _ _ _ _ _ hv]
    split
    · rename_i c
      exact le_trans c.2 (hle e.v hvn)
    · exact hle x hx
  · intro x hx hxs
    rw [key_relax _ _ _ _ _ hv, pi_relax _ _ _ _ _ hv]
    split
    · intro c; cases c
    · exact hnone x hx hxs
  · intro x hx u'
    rw [key_relax _ _ _ _ x hv, pi_relax _ _ _ _ _ hv]
    split
    · rename_i c
      intro hu'
      cases hu'
      refine ⟨hu, ?_⟩
      rw [key_relax _ _ _ _ u hv]
      split
      · rename_i c'
        have := c'.2
        rw [← c'.1] at this
        linarith
      · linarith
    · intro hu'
      obtain ⟨a, b⟩ := hsome x hx u' hu'
      exact ⟨a, lt_of_le_of_lt (relax_key_le G' u e.v e.w u') b⟩

theorem tree_relaxAdj (G : GRAPH) (s : Nat) (hwf : G.WF)
    (hpos : ∀ i < G.num_vertices, ∀ e ∈ G.adj i, 0 < e.w)
    (G' : GRAPH) (u : Nat) (hu : u < G.num_vertices)
    (h : Tree G s G') : Tree G s (relaxAdj G' u (G'.adj u)) := by
  refine relaxAdj_inv (Tree G s) u (fun e => e ∈ G.adj u) ?_ _ G' ?_ h
  · intro G'' e h' he
    exact tree_relax G s hwf hpos G'' u hu e he h'
  · intro e he
    rw [(h.1.2.2 u).1] at he
    exact he

theorem rank_lt (G : GRAPH) (n u x : Nat) (hu : u < n) (h : G.key u < G.key x) :
    rank G n u < rank G n x := by
  unfold rank
  apply Finset.card_lt_card
  rw [Finset.ssubset_iff_of_subset]
  · exact ⟨u, by simp [hu, h], by simp⟩
  · intro y hy
    simp only [Finset.mem_filter, Finset.mem_range] at hy ⊢
    exact ⟨hy.1, lt_trans hy.2 h⟩

theorem rank_lt_n (G : GRAPH) (n x : Nat) (hx : x < n) : rank G n x < n := by
  unfold rank
  have : ((Finset.range n).filter fun y => G.key y < G.key x) ⊂ Finset.range n := by
    rw [Finset.ssubset_iff_of_subset (Finset.filter_subset _ _)]
    exact ⟨x, by simp [hx], by simp⟩
  simpa using Finset.card_lt_card this

theorem printPath_chain (G : GRAPH) (s : Nat) (G' : GRAPH) (h : Tree G s G') :
    ∀ (r : Nat) (v : Nat), v < G.num_vertices → rank G' G.num_vertices v ≤ r →
      G'.key v ≠ FLT_MAX →
      ∃ p, printPath G' (r + 1) v = some p ∧ p.head? = some s ∧ p.getLast? = some v ∧
        p.length ≤ r + 1 ∧ (∀ a ∈ p, G'.key a ≤ G'.key v) ∧
        p.Pairwise (fun a b => G'.key a < G'.key b) ∧
        p.Chain' (fun a b => G'.pi b = some a) := by
  obtain ⟨_, _, _, _, hle, hnone, hsome⟩ := h
  intro r
  induction r with
  | zero =>
    intro v hv hr hne
    cases hp : G'.pi v with
    | none =>
      have hvs : v = s := by
        by_contra c
        exact hne (hnone v hv c hp)
      refine ⟨[v], ?_, by simp [hvs], by simp, by simp, by simp, by simp, by simp⟩
      unfold printPath
      rw [hp]
    | some u =>
      obtain ⟨a, b⟩ := hsome v hv u hp
      have := rank_lt G' _ u v a b
      omega
  | succ r ih =>
    intro v hv hr hne
    cases hp : G'.pi v with
    | none =>
      have hvs : v = s := by
        by_contra c
        exact hne (hnone v hv c hp)
      refine ⟨[v], ?_, by simp [hvs], by simp, by simp, by simp, by simp, by simp⟩
      unfold printPath
      rw [hp]
    | some u =>
      obtain ⟨a, b⟩ := hsome v hv u hp
      have hlt := rank_lt G' _ u v a b
      have hune : G'.key u ≠ FLT_MAX := by
        intro c
        have := hle v hv
        rw [c] at b
        linarith
      obtain ⟨p, e, e1, e2, e3, e4, e5, e6⟩ := ih u a (by omega) hune
      have hpne : p ≠ [] := by
        intro c; rw [c] at e1; simp at e1
      refine ⟨p ++ [v], ?_, ?_, by simp, by simp; omega, ?_, ?_, ?_⟩
      · rw [printPath, hp]
        simp only [e, Option.map_some']
      · rw [List.head?_append_of_ne_nil _ hpne]; exact e1
      · intro x hx
        rw [List.mem_append] at hx
        rcases hx with hx | hx
        · exact le_trans (e4 x hx) (le_of_lt b)
        · simp at hx; rw [hx]
      · rw [List.pairwise_append]
        refine ⟨e5, by simp, ?_⟩
        intro x hx y hy
        simp at hy
        rw [hy]
        exact lt_of_le_of_lt (e4 x hx) b
      · rw [List.chain'_append]
        refine ⟨e6, by simp, ?_⟩
        intro x hx y hy
        simp at hy
        rw [← hy]
        rw [e2] at hx
        simp at hx
        rw [← hx]
        exact hp

/-! ## The claims, continued -/

/-- C11. `addEdgeReverse(G, u, v, w)` makes the adjacency list of `u` its
previous list followed by `(v, w)`, and changes no other adjacency list, no key,
no predecessor, no vertex index and not the vertex count. -/
theorem addEdgeReverse_appends (G : GRAPH) (u v : Nat) (w : ℚ) (hu : u < G.V.length) :
    (addEdgeReverse G u v w).adj u = G.adj u ++ [⟨v, w⟩] ∧
    (∀ x, x ≠ u → (addEdgeReverse G u v w).adj x = G.adj x) ∧
    (∀ x, (addEdgeReverse G u v w).key x = G.key x) ∧
    (∀ x, (addEdgeReverse G u v w).pi x = G.pi x) ∧
    (∀ x, ((addEdgeReverse G u v w).vtx x).index = (G.vtx x).index) ∧
    (addEdgeReverse G u v w).num_vertices = G.num_vertices ∧
    (addEdgeReverse G u v w).V.length = G.V.length := by
  rw [addEdgeReverse_eq]
  have hx : ∀ x, ((G.setV u { G.vtx u with adj := (G.vtx u).adj ++ [⟨v, w⟩] }).vtx x).key
        = (G.vtx x).key ∧
      ((G.setV u { G.vtx u with adj := (G.vtx u).adj ++ [⟨v, w⟩] }).vtx x).pi = (G.vtx x).pi ∧
      ((G.setV u { G.vtx u with adj := (G.vtx u).adj ++ [⟨v, w⟩] }).vtx x).index
        = (G.vtx x).index := by
    intro x
    rw [GRAPH.vtx_setV]
    split
    · rename_i h; rw [h.1]; exact ⟨rfl, rfl, rfl⟩
    · exact ⟨rfl, rfl, rfl⟩
  refine ⟨?_, ?_, fun x => (hx x).1, fun x => (hx x).2.1, fun x => (hx x).2.2, rfl, by simp⟩
  · unfold GRAPH.adj
    rw [GRAPH.vtx_setV_same _ _ _ hu]
  · intro x hxu
    unfold GRAPH.adj
    rw [GRAPH.vtx_setV_ne _ _ _ _ hxu]

theorem addEdgeReverse_appends_witness :
    0 < (exampleGraph 2).V.length ∧
    (addEdgeReverse (exampleGraph 2) 0 1 7).adj 0 = (exampleGraph 2).adj 0 ++ [⟨1, 7⟩] :=
  ⟨by decide!, (addEdgeReverse_appends (exampleGraph 2) 0 1 7 (by decide!)).1⟩

/-- C12. After `initSingleSource(G, s)` every vertex other than `s` has key
`FLT_MAX` and no predecessor, `s` has key 0 and no predecessor, and the vertex
count, the vertex indices and the adjacency lists are those of `G`. -/
theorem initSingleSource_correct (G : GRAPH) (s : Nat) (hlen : G.V.length = G.num_vertices)
    (hs : s < G.num_vertices) :
    (∀ i < G.num_vertices, i ≠ s →
      (initSingleSource G s).key i = FLT_MAX ∧ (initSingleSource G s).pi i = none) ∧
    (initSingleSource G s).key s = 0 ∧ (initSingleSource G s).pi s = none ∧
    (initSingleSource G s).num_vertices = G.num_vertices ∧
    (initSingleSource G s).V.length = G.V.length ∧
    (∀ i, ((initSingleSource G s).vtx i).index = (G.vtx i).index) ∧
    (∀ i, (initSingleSource G s).adj i = G.adj i) := by
  obtain ⟨h1, h2, h3⟩ := initSingleSource_spec G s hlen
  have hf := frame_init G s hlen
  refine ⟨?_, ?_, ?_, h2, h1, fun i => (hf.2.2 i).2, fun i => (hf.2.2 i).1⟩
  · intro i hi his
    unfold GRAPH.key GRAPH.pi
    rw [h3, if_pos hi]
    simp [his]
  · unfold GRAPH.key
    rw [h3, if_pos hs]
    simp
  · unfold GRAPH.pi
    rw [h3, if_pos hs]

theorem initSingleSource_correct_witness :
    (exampleGraph 2).V.length = (exampleGraph 2).num_vertices ∧
    0 < (exampleGraph 2).num_vertices ∧
    (initSingleSource (exampleGraph 2) 0).key 0 = 0 :=
  ⟨by decide!, by decide!,
    (initSingleSource_correct (exampleGraph 2) 0 (by decide!) (by decide!)).2.1⟩

/-- C13 (evaluation at failing inputs). On `zeroCycleGraph` the source ends
with a predecessor: `relax(2, 1, 0)` fires on the tie `0 >= 0 + 0`. On
`zeroTailGraph` vertex 4 ends with key `FLT_MAX` and predecessor 2: vertex 2 is
extracted with key `FLT_MAX` and `relax(2, 4, 0)` fires on the tie
`FLT_MAX >= FLT_MAX + 0`. Both graphs have non-negative weights. -/
theorem predecessor_set_on_source_and_unreached :
    (∀ i < 2, ∀ e ∈ zeroCycleGraph.adj i, 0 ≤ e.w) ∧
    (∃ G', dijkstra zeroCycleGraph 0 = some G' ∧ G'.pi 0 = some 1) ∧
    (∀ i < 4, ∀ e ∈ zeroTailGraph.adj i, 0 ≤ e.w) ∧
    (∃ G', dijkstra zeroTailGraph 0 = some G' ∧ G'.key 3 = FLT_MAX ∧ G'.pi 3 = some 1) := by
  refine ⟨by decide!, ⟨⟨2, [⟨0, 0, some 1, [⟨1, 0⟩]⟩, ⟨1, 0, some 0, [⟨0, 0⟩]⟩]⟩,
    by decide!, by decide!⟩, by decide!,
    ⟨⟨4, [⟨0, 0, none, [⟨2, 1⟩]⟩, ⟨1, 2, some 2, [⟨3, 0⟩]⟩, ⟨2, 1, some 0, [⟨1, 1⟩]⟩,
      ⟨3, FLT_MAX, some 1, []⟩]⟩, by decide!, by decide!, by decide!⟩⟩

/-- C14 (evaluation at a failing input). On `zeroCycleGraph`, whose weights are
all zero, following the predecessor links from vertex 1 after `dijkstra` from
vertex 1 never reaches a vertex without predecessor, whatever the number of
steps. -/
theorem predecessor_links_cycle_on_zero_weights :
    (∀ i < 2, ∀ e ∈ zeroCycleGraph.adj i, 0 ≤ e.w) ∧
    ∃ G', dijkstra zeroCycleGraph 0 = some G' ∧
      ∀ k, ∃ x, followPi G' k 0 = some x ∧ G'.pi x ≠ none := by
  refine ⟨by decide!, ⟨2, [⟨0, 0, some 1, [⟨1, 0⟩]⟩, ⟨1, 0, some 0, [⟨0, 0⟩]⟩]⟩,
    by decide!, ?_⟩
  have key : ∀ k,
      (∃ x, followPi ⟨2, [⟨0, 0, some 1, [⟨1, 0⟩]⟩, ⟨1, 0, some 0, [⟨0, 0⟩]⟩]⟩ k 0 = some x ∧
        x < 2) ∧
      (∃ x, followPi ⟨2, [⟨0, 0, some 1, [⟨1, 0⟩]⟩, ⟨1, 0, some 0, [⟨0, 0⟩]⟩]⟩ k 1 = some x ∧
        x < 2) := by
    intro k
    induction k with
    | zero => exact ⟨⟨0, rfl, by decide⟩, ⟨1, rfl, by decide⟩⟩
    | succ k ih => exact ⟨ih.2, ih.1⟩
  intro k
  obtain ⟨x, hx, hlt⟩ := (key k).1
  refine ⟨x, hx, ?_⟩
  have : x = 0 ∨ x = 1 := by omega
  rcases this with rfl | rfl
  · decide!
  · decide!

/-- C15. `dijkstra(G, s)` returns, and the graph afterwards has the vertex
count, the array length, the vertex indices and the adjacency lists of `G`. -/
theorem dijkstra_preserves_graph_structure (G : GRAPH) (s : Nat) (hwf : G.WF) (hs : s < G.num_vertices) :
    ∃ G', dijkstra G s = some G' ∧ G'.num_vertices = G.num_vertices ∧
      G'.V.length = G.V.length ∧
      ∀ i, (G'.vtx i).index = (G.vtx i).index ∧ G'.adj i = G.adj i := by
  have _ := hs
  obtain ⟨G', e, hf⟩ := dijkstra_inv (Frame G) G s hwf.1 (frame_init G s hwf.1)
    (fun G' u h _ => relaxAdj_inv (Frame G) u (fun _ => True)
      (fun G'' e h' _ => frame_relax G G'' u e.v e.w h') _ G' (fun _ _ => trivial) h)
  exact ⟨G', e, hf.2.1, hf.1, fun i => ⟨(hf.2.2 i).2, (hf.2.2 i).1⟩⟩

theorem dijkstra_preserves_graph_structure_witness :
    (exampleGraph 2).WF ∧ 0 < (exampleGraph 2).num_vertices ∧
    ∃ G', dijkstra (exampleGraph 2) 0 = some G' ∧
      G'.num_vertices = (exampleGraph 2).num_vertices ∧
      G'.V.length = (exampleGraph 2).V.length ∧
      ∀ i, (G'.vtx i).index = ((exampleGraph 2).vtx i).index ∧
        G'.adj i = (exampleGraph 2).adj i :=
  ⟨by decide!, by decide!,
    dijkstra_preserves_graph_structure (exampleGraph 2) 0 (by decide!) (by decide!)⟩

/-- C16 (evaluation at a failing input). On `chainGraph`, whose weights are all
positive, the second extraction of the outer loop of `dijkstra` from vertex 1
returns vertex 2, whose key is `FLT_MAX` at that moment, while vertex 3, whose
key is 1, is still in the queue (at the root of the heap left by the
extraction). -/
theorem drain_extracts_non_minimum :
    (∀ i < 4, ∀ e ∈ chainGraph.adj i, 0 ≤ e.w) ∧
    ∃ log G' Q Gm, dijkstraLog chainGraph 0 = some (log, G') ∧
      log[1]? = some (1, Q, Gm) ∧ Q.size = 2 ∧ Q.at 0 = 2 ∧
      Gm.key 2 = 1 ∧ Gm.key 1 = FLT_MAX ∧ Gm.key 2 < Gm.key 1 := by
  refine ⟨by decide!, ?_⟩
  cases h : dijkstraLog chainGraph 0 with
  | none => exact absurd h (by decide!)
  | some r =>
    cases h1 : r.1[1]? with
    | none =>
      have : ((dijkstraLog chainGraph 0).bind fun r => r.1[1]?) ≠ none := by decide!
      rw [h] at this
      exact absurd h1 this
    | some t =>
      have e : ((dijkstraLog chainGraph 0).bind fun r => r.1[1]?).map
          (fun t => (t.1, t.2.1.size, t.2.1.at 0, t.2.2.key 2, t.2.2.key 1))
          = some (1, 2, 2, 1, FLT_MAX) := by decide!
      rw [h] at e
      simp only [Option.some_bind, h1, Option.map_some', Option.some.injEq, Prod.mk.injEq] at e
      obtain ⟨a, b, c, d, f⟩ := e
      refine ⟨r.1, r.2, t.2.1, t.2.2, rfl, ?_, b, c, d, f, ?_⟩
      · rw [h1, ← a]
      · rw [d, f]; unfold FLT_MAX; norm_num

/-- C17. No call of `relax`, no iteration of the outer loop of `dijkstra` and
no run of that loop leaves a vertex with a larger key than before, and after
`dijkstra(G, s)` no key is larger than it was after `initSingleSource`. -/
theorem keys_never_increase (G : GRAPH) (s : Nat) (hwf : G.WF) (hs : s < G.num_vertices) :
    (∀ (G1 : GRAPH) (u v : Nat) (w : ℚ) (x : Nat), (relax G1 u v w).key x ≤ G1.key x) ∧
    (∀ (G1 : GRAPH) (u : Nat) (x : Nat), (relaxAdj G1 u (G1.adj u)).key x ≤ G1.key x) ∧
    (∀ (fuel : Nat) (G1 G2 : GRAPH) (Q : MIN_HEAP) (x : Nat),
      drain fuel G1 Q = some G2 → G2.key x ≤ G1.key x) ∧
    ∃ G', dijkstra G s = some G' ∧ ∀ x, G'.key x ≤ (initSingleSource G s).key x := by
  have _ := hs
  refine ⟨fun G1 u v w x => relax_key_le G1 u v w x,
    fun G1 u x => relaxAdj_key_le u x _ G1,
    fun fuel G1 G2 Q x h => drain_key_le x fuel G1 G2 Q h, ?_⟩
  exact dijkstra_inv (fun G' => ∀ x, G'.key x ≤ (initSingleSource G s).key x) G s hwf.1
    (fun x => le_refl _)
    (fun G' u h _ x => le_trans (relaxAdj_key_le u x _ G') (h x))

theorem keys_never_increase_witness :
    (exampleGraph 2).WF ∧ 0 < (exampleGraph 2).num_vertices ∧
    ∃ G', dijkstra (exampleGraph 2) 0 = some G' ∧
      ∀ x, G'.key x ≤ (initSingleSource (exampleGraph 2) 0).key x :=
  ⟨by decide!, by decide!,
    (keys_never_increase (exampleGraph 2) 0 (by decide!) (by decide!)).2.2.2⟩

/-- C18. `dijkstra(G, s)` returns. While the queue is populated its size is
the number of insertions made and never exceeds the capacity `num_vertices`;
the outer loop then performs `num_vertices` extractions, each of which returns
a vertex, and the vertices extracted are the vertices of the graph, each
once. -/
theorem dijkstra_extracts_each_vertex_once (G : GRAPH) (s : Nat) (hwf : G.WF) (hs : s < G.num_vertices) :
    (∀ k ≤ G.num_vertices, ∃ Q,
      populate (initSingleSource G s) (List.range k) (createMinHeap G.num_vertices) = some Q ∧
      Q.size = k ∧ Q.size ≤ Q.capacity ∧ Q.capacity = G.num_vertices) ∧
    ∃ log G', dijkstraLog G s = some (log, G') ∧ dijkstra G s = some G' ∧
      log.length = G.num_vertices ∧
      (log.map Prod.fst).Perm (List.range G.num_vertices) := by
  have _ := hs
  obtain ⟨_, hnum, _⟩ := initSingleSource_spec G s hwf.1
  constructor
  · intro k hk
    obtain ⟨Q, e, e1, e2, e3, _, _⟩ := populate_spec (initSingleSource G s)
      (List.range k) (createMinHeap G.num_vertices) (createMinHeap_wf _)
      (by simp [createMinHeap]; omega)
    refine ⟨Q, e, by simpa [createMinHeap] using e2, ?_, by simpa [createMinHeap] using e3⟩
    exact e1.1 ▸ e1.2
  · obtain ⟨Q, e, e1, e2, _, e4, _⟩ := populate_spec (initSingleSource G s)
      (List.range G.num_vertices) (createMinHeap G.num_vertices) (createMinHeap_wf _)
      (by simp [createMinHeap])
    obtain ⟨log, G', e', hl, hm⟩ := drainLog_spec G.num_vertices (initSingleSource G s) Q e1
      (by simpa [createMinHeap] using le_of_eq e2)
    have hlog : dijkstraLog G s = some (log, G') := by
      unfold dijkstraLog
      simp only [hnum, e]
      exact e'
    refine ⟨log, G', hlog, ?_, ?_, ?_⟩
    · rw [← dijkstraLog_snd, hlog]; rfl
    · rw [hl, e2]; simp [createMinHeap]
    · rw [e4] at hm
      have : ((List.map Prod.fst log : List Nat) : Multiset Nat)
          = ((List.range G.num_vertices : List Nat) : Multiset Nat) := by
        rw [hm]; simp [MIN_HEAP.entries, createMinHeap]
      exact Multiset.coe_eq_coe.mp this

theorem dijkstra_extracts_each_vertex_once_witness :
    (exampleGraph 2).WF ∧ 0 < (exampleGraph 2).num_vertices ∧
    ∃ log G', dijkstraLog (exampleGraph 2) 0 = some (log, G') ∧
      dijkstra (exampleGraph 2) 0 = some G' ∧
      log.length = (exampleGraph 2).num_vertices ∧
      (log.map Prod.fst).Perm (List.range (exampleGraph 2).num_vertices) :=
  ⟨by decide!, by decide!,
    (dijkstra_extracts_each_vertex_once (exampleGraph 2) 0 (by decide!) (by decide!)).2⟩

/-- C19. On a graph with non-negative weights, after `dijkstra(G, s)` the
source has key 0 and every key other than `FLT_MAX` is the total weight of a
walk from `s` to its vertex, hence at least every lower bound of the weights of
such walks. -/
theorem keys_are_walk_weights (G : GRAPH) (s : Nat) (hwf : G.WF) (hs : s < G.num_vertices)
    (hnn : ∀ i < G.num_vertices, ∀ e ∈ G.adj i, 0 ≤ e.w) :
    ∃ G', dijkstra G s = some G' ∧ G'.key s = 0 ∧
      ∀ v < G.num_vertices, G'.key v ≠ FLT_MAX →
        Walk G s v (G'.key v) ∧
        ∀ d : ℚ, (∀ d', Walk G s v d' → d ≤ d') → d ≤ G'.key v := by
  obtain ⟨G', e, h⟩ := dijkstra_inv (Reached G s) G s hwf.1 (reached_init G s hwf.1 hs)
    (fun G' u h hu => reached_relaxAdj G s hwf hnn G' u hu h)
  refine ⟨G', e, h.2.1, ?_⟩
  intro v hv hne
  have hw := h.2.2.2.2 v hv hne
  exact ⟨hw, fun d hd => hd _ hw⟩

theorem keys_are_walk_weights_witness :
    (exampleGraph 2).WF ∧ 0 < (exampleGraph 2).num_vertices ∧
    (∀ i < (exampleGraph 2).num_vertices, ∀ e ∈ (exampleGraph 2).adj i, 0 ≤ e.w) ∧
    ∃ G', dijkstra (exampleGraph 2) 0 = some G' ∧ G'.key 0 = 0 ∧
      ∀ v < (exampleGraph 2).num_vertices, G'.key v ≠ FLT_MAX →
        Walk (exampleGraph 2) 0 v (G'.key v) ∧
        ∀ d : ℚ, (∀ d', Walk (exampleGraph 2) 0 v d' → d ≤ d') → d ≤ G'.key v :=
  ⟨by decide!, by decide!, by decide!,
    keys_are_walk_weights (exampleGraph 2) 0 (by decide!) (by decide!) (by decide!)⟩

/-- C20. On a graph with positive weights, after `dijkstra(G, s)` the source
has no predecessor, and for every vertex `v` with a key other than `FLT_MAX`
`printPath` returns with fuel `num_vertices`: the chain of predecessors of `v`
starts at `s`, ends at `v`, takes at most `num_vertices - 1` steps, repeats no
vertex and has strictly increasing keys from `s` to `v`. -/
theorem predecessor_chain_reaches_source (G : GRAPH) (s : Nat) (hwf : G.WF) (hs : s < G.num_vertices)
    (hpos : ∀ i < G.num_vertices, ∀ e ∈ G.adj i, 0 < e.w) :
    ∃ G', dijkstra G s = some G' ∧ G'.pi s = none ∧
      ∀ v < G.num_vertices, G'.key v ≠ FLT_MAX →
        ∃ p, printPath G' G.num_vertices v = some p ∧
          p.head? = some s ∧ p.getLast? = some v ∧
          p.length - 1 ≤ G.num_vertices - 1 ∧ p.Nodup ∧
          p.Pairwise (fun a b => G'.key a < G'.key b) ∧
          p.Chain' (fun a b => G'.pi b = some a) := by
  obtain ⟨G', e, h⟩ := dijkstra_inv (Tree G s) G s hwf.1 (tree_init G s hwf.1 hs)
    (fun G' u h hu => tree_relaxAdj G s hwf hpos G' u hu h)
  refine ⟨G', e, h.2.2.1, ?_⟩
  intro v hv hne
  have hr := rank_lt_n G' G.num_vertices v hv
  obtain ⟨p, e1, e2, e3, e4, _, e6, e7⟩ :=
    printPath_chain G s G' h (G.num_vertices - 1) v hv (by omega) hne
  have hn : G.num_vertices - 1 + 1 = G.num_vertices := by omega
  rw [hn] at e1 e4
  refine ⟨p, e1, e2, e3, by omega, ?_, e6, e7⟩
  exact e6.imp (fun hab => fun c => by rw [c] at hab; exact lt_irrefl _ hab)

theorem predecessor_chain_reaches_source_witness :
    (exampleGraph 2).WF ∧ 0 < (exampleGraph 2).num_vertices ∧
    (∀ i < (exampleGraph 2).num_vertices, ∀ e ∈ (exampleGraph 2).adj i, 0 < e.w) ∧
    ∃ G', dijkstra (exampleGraph 2) 0 = some G' ∧ G'.pi 0 = none ∧
      ∀ v < (exampleGraph 2).num_vertices, G'.key v ≠ FLT_MAX →
        ∃ p, printPath G' (exampleGraph 2).num_vertices v = some p ∧
          p.head? = some 0 ∧ p.getLast? = some v ∧
          p.length - 1 ≤ (exampleGraph 2).num_vertices - 1 ∧ p.Nodup ∧
          p.Pairwise (fun a b => G'.key a < G'.key b) ∧
          p.Chain' (fun a b => G'.pi b = some a) :=
  ⟨by decide!, by decide!, by decide!,
    predecessor_chain_reaches_source (exampleGraph 2) 0 (by decide!) (by decide!)
      (by decide!)⟩

end CSE310
